import Mathlib

/-!
Skill catalog utilities: frontmatter parsing, skill discovery, catalog building.

A shallow embedding of `lib/skill-utils.js` and `scripts/build-catalog.js`.

* JavaScript strings are sequences of UTF-16 code units: `Str` is a list of code
  units, each a natural number.
* The YAML parser (`yaml.parseDocument(..).toJS()`), `String.prototype.toLowerCase`
  and `String.prototype.localeCompare` belong to the runtime and its libraries;
  they are parameters of the functions that call them.
* Exceptions are modelled with `Except JSError`.
* The disk is a tree of files and directories on POSIX, with the read and search
  permissions of directories and with symbolic links.
-/

namespace SkillCatalog

/-! ## Strings -/

/-- A JavaScript string: its UTF-16 code units. -/
abbrev Str := List Nat

/-- The code units of a string literal (characters outside the BMP become a surrogate pair). -/
def js (s : String) : Str :=
  s.toList.flatMap fun c =>
    if c.toNat < 65536 then [c.toNat]
    else [55296 + (c.toNat - 65536) / 1024, 56320 + (c.toNat - 65536) % 1024]

/-- Line feed. -/
def LF : Nat := 10

/-- Carriage return. -/
def CR : Nat := 13

/-- The code units `String.prototype.trim` removes: WhiteSpace and LineTerminator. -/
def isWhiteSpace (c : Nat) : Bool :=
  c == 9 || c == 10 || c == 11 || c == 12 || c == 13 || c == 32 || c == 160 ||
  c == 5760 || (8192 ≤ c && c ≤ 8202) || c == 8232 || c == 8233 || c == 8239 ||
  c == 8287 || c == 12288 || c == 65279

/-- `s.trim()`. -/
def trim (s : Str) : Str :=
  ((s.dropWhile isWhiteSpace).reverse.dropWhile isWhiteSpace).reverse

/-- `lines.join(sep)`. -/
def join (sep : Str) : List Str → Str
  | [] => []
  | [l] => l
  | l :: m :: ls => l ++ sep ++ join sep (m :: ls)

/-- Prepends a code unit to the first piece of a split. -/
def pushFront (c : Nat) : List Str → List Str
  | [] => [[c]]
  | l :: ls => (c :: l) :: ls

/-- `content.split(/\r?\n/)`: the pieces between the matches of the pattern, found
left to right, so that a carriage return directly before a line feed belongs to the
separator and any other carriage return stays in its piece. -/
def splitLines : Str → List Str
  | [] => [[]]
  | [c] => if c = LF then [[], []] else [[c]]
  | c :: d :: rest =>
    if c = LF then [] :: splitLines (d :: rest)
    else if c = CR ∧ d = LF then [] :: splitLines rest
    else pushFront c (splitLines (d :: rest))

/-! ## JavaScript values -/

/-- The exceptions the program can meet. -/
inductive JSError where
  | typeError
  | yamlError
  | enoent
  | eacces
  | eisdir
  | enotdir
  deriving DecidableEq, Repr

/-- The values `doc.toJS()` can produce, and `undefined`. -/
inductive JSValue where
  | undefined
  | null
  | bool (b : Bool)
  | number (n : Int)
  | nan
  | string (s : Str)
  | array (items : List JSValue)
  | object (props : List (Str × JSValue))

/-- `Boolean(v)`. -/
def JSValue.truthy : JSValue → Bool
  | .undefined => false
  | .null => false
  | .bool b => b
  | .number n => n != 0
  | .nan => false
  | .string s => !s.isEmpty
  | .array _ => true
  | .object _ => true

/-- `Array.isArray(v)`. -/
def JSValue.isArray : JSValue → Bool
  | .array _ => true
  | _ => false

/-- Whether the value is a mapping (a plain object). -/
def JSValue.isMapping : JSValue → Bool
  | .object _ => true
  | _ => false

/-- `v[key]` for one of the keys `name`, `description`, `tags`, which no prototype
defines: a `TypeError` on `undefined` and `null`, the own property of an object, and
`undefined` on everything else. -/
def JSValue.getProp (v : JSValue) (key : Str) : Except JSError JSValue :=
  match v with
  | .undefined => .error .typeError
  | .null => .error .typeError
  | .object props => .ok ((props.lookup key).getD .undefined)
  | _ => .ok .undefined

/-- `a || b`. -/
def JSValue.or (a b : JSValue) : JSValue := if a.truthy then a else b

/-! ## Frontmatter parser (`lib/skill-utils.js`) -/

/-- The delimiter line `---`. -/
def delimiter : Str := [45, 45, 45]

/-- The result of `parseFrontmatter`. -/
structure Frontmatter where
  data : JSValue
  body : Str

/-- The loop `for (let i = 1; i < lines.length; i += 1)` of `parseFrontmatter`, entered
at index `i` with the lines from `i` on: the first index whose line trims to `---`. -/
def findEndIndex : List Str → Nat → Option Nat
  | [], _ => none
  | l :: ls, i => if trim l = delimiter then some i else findEndIndex ls (i + 1)

/-- `lines.slice(start, stop)`. -/
def slice (lines : List Str) (start stop : Nat) : List Str :=
  (lines.take stop).drop start

/-- `parseFrontmatter(content)`; `yaml fmText` is `yaml.parseDocument(fmText).toJS()`,
either a value or an exception. -/
def parseFrontmatter (yaml : Str → Except JSError JSValue) (content : Str) : Frontmatter :=
  match splitLines content with
  | [] => { data := .object [], body := content }
  | first :: rest =>
    if trim first ≠ delimiter then { data := .object [], body := content }
    else
      match findEndIndex rest 1 with
      | none => { data := .object [], body := content }
      | some endIndex =>
        let lines := first :: rest
        let fmText := join [LF] (slice lines 1 endIndex)
        let data :=
          match yaml fmText with
          | .ok v => v
          | .error _ => .object []
        { data := data, body := join [LF] (lines.drop (endIndex + 1)) }


/-! ## Paths and the file system -/

/-- The POSIX path separator `/`. -/
def SEP : Nat := 47

/-- The definition file name. -/
def SKILL_MD : Str := js "SKILL.md"

/-- `path.join(...segments)` on POSIX, for segments that are already normalised (no `.`
or `..` segment, no doubled or trailing separator): the non-empty segments joined by `/`. -/
def pathJoin (segments : List Str) : Str :=
  join [SEP] (segments.filter fun s => !s.isEmpty)

/-- The segments of a path: `p.split('/')`. -/
def splitPath : Str → List Str
  | [] => [[]]
  | c :: rest => if c = SEP then [] :: splitPath rest else pushFront c (splitPath rest)

/-- `path.relative(from, to)` on POSIX for a path `to` below the directory `from`. -/
def pathRelative (src dst : Str) : Str :=
  if (src ++ [SEP]).isPrefixOf dst then dst.drop (src.length + 1) else dst

/-- A node of the file system with everything below it. A file whose content is `none`
cannot be read. A directory has the permission to list it (read), the permission to reach
by path what it holds (search), its entries that are files and directories, and its entries
that are symbolic links, each with the node the link leads to (`none` when it dangles). -/
inductive Node where
  | file (name : Str) (content : Option Str)
  | dir (name : Str) (listable : Bool) (searchable : Bool) (entries : List Node)
      (links : List (Str × Option Node))

/-- `entry.name`. -/
def Node.name : Node → Str
  | .file name _ => name
  | .dir name _ _ _ _ => name

/-- `entry.isDirectory()`. -/
def Node.isDirectory : Node → Bool
  | .file _ _ => false
  | .dir _ _ _ _ _ => true

/-- The entries of a directory that are files and directories (none for a file). These are
the entries for which `isDirectory()` can hold: for a symbolic link it does not. -/
def Node.entries : Node → List Node
  | .file _ _ => []
  | .dir _ _ _ entries _ => entries

/-- The entries of a directory that are symbolic links. -/
def Node.links : Node → List (Str × Option Node)
  | .file _ _ => []
  | .dir _ _ _ _ links => links

/-- Whether the node is a directory that can be searched. -/
def Node.searchable : Node → Bool
  | .file _ _ => false
  | .dir _ _ searchable _ _ => searchable

/-- `fs.existsSync(path.join(dirPath, name))` for a directory `dirPath` that its path leads
to: whether the directory can be searched and holds an entry of that name that leads to a
node, be it a file, a directory, or a symbolic link that does not dangle. -/
def existsSync (dir : Node) (name : Str) : Bool :=
  dir.searchable &&
    (dir.entries.any (fun e => e.name == name) ||
      dir.links.any fun link => link.1 == name && link.2.isSome)

/-- The node a relative path leads to, from the node it is relative to: every directory on
the way has to be searchable, and symbolic links are followed. -/
def lookupPath : Node → List Str → Except JSError Node
  | node, [] => .ok node
  | .file _ _, _ :: _ => .error .enotdir
  | .dir _ _ searchable entries links, segment :: rest =>
    if searchable then
      match entries.find? fun e => e.name == segment with
      | some child => lookupPath child rest
      | none =>
        match links.lookup segment with
        | some (some target) => lookupPath target rest
        | _ => .error .enoent
    else .error .eacces

/-- Reading a node as a text file. -/
def readNode : Node → Except JSError Str
  | .file _ (some content) => .ok content
  | .file _ none => .error .eacces
  | .dir _ _ _ _ _ => .error .eisdir

/-- `fs.readFileSync(filePath, 'utf8')` when the directory `dirPath` holds `dir` and nothing
else is on the disk. -/
def readFileSync (dirPath : Str) (dir : Node) (filePath : Str) : Except JSError Str :=
  if (dirPath ++ [SEP]).isPrefixOf filePath then
    match lookupPath dir (splitPath (pathRelative dirPath filePath)) with
    | .ok node => readNode node
    | .error e => .error e
  else .error .enoent

/-! ## Sorting -/

/-- `x < y` on strings: lexicographic on code units, a proper prefix coming first. -/
def strLt : Str → Str → Bool
  | [], [] => false
  | [], _ :: _ => true
  | _ :: _, [] => false
  | a :: as, b :: bs => if a < b then true else if b < a then false else strLt as bs

/-- The comparator of `Array.prototype.sort()` called without an argument. -/
def sortCompare (x y : Str) : Int :=
  if strLt x y then -1 else if strLt y x then 1 else 0

/-- `array.sort(compare)`: the stable sort with respect to a consistent comparator, `a`
staying before `b` when `compare(a, b) ≤ 0`. -/
def sortBy {α : Type} (compare : α → α → Int) (array : List α) : List α :=
  array.insertionSort fun a b => compare a b ≤ 0

/-! ## Skill reader (`lib/skill-utils.js`) -/

/-- The record `readSkill` returns. -/
structure SkillRecord where
  id : Str
  name : JSValue
  description : JSValue
  tags : List JSValue
  path : Str

/-- `Array.isArray(v) ? v : []`. -/
def arrayOrEmpty : JSValue → List JSValue
  | .array items => items
  | _ => []

/-- `readSkill(skillDir, skillId)`; `readFile` is `fs.readFileSync(·, 'utf8')`. -/
def readSkill (yaml : Str → Except JSError JSValue) (readFile : Str → Except JSError Str)
    (skillDir skillId : Str) : Except JSError SkillRecord :=
  let skillPath := pathJoin [skillDir, skillId, SKILL_MD]
  match readFile skillPath with
  | .error e => .error e
  | .ok content =>
    let data := (parseFrontmatter yaml content).data
    match data.getProp (js "name"), data.getProp (js "description"), data.getProp (js "tags") with
    | .ok name, .ok description, .ok tags =>
      .ok {
        id := skillId
        name := name.or (.string skillId)
        description := description.or (.string [])
        tags := arrayOrEmpty tags
        path := skillPath }
    | .error e, _, _ => .error e
    | _, .error e, _ => .error e
    | _, _, .error e => .error e

/-! ## Skill discovery (`lib/skill-utils.js`) -/

/-- `entry.name.startsWith('.')`. -/
def startsWithDot (name : Str) : Bool :=
  name.head? == some 46

mutual
/-- `listSkillIdsRecursive(dir, baseDir, acc)`: `rel` is the path of `baseDir` relative to
`dir`, segment by segment, and `reachable` tells whether that path leads to `baseDir`, every
directory from `dir` down to the parent of `baseDir` being searchable; the accumulator is
passed in and handed back sorted. `fs.readdirSync(baseDir)` fails with `EACCES` when the
path cannot be followed or the directory cannot be listed, and with `ENOTDIR` on a file. -/
def listSkillIdsRecursiveFrom (rel : List Str) (reachable : Bool) (baseDir : Node)
    (acc : List Str) : Except JSError (List Str) :=
  match baseDir with
  | .file _ _ => .error (if reachable then .enotdir else .eacces)
  | .dir _ listable searchable entries _ =>
    if reachable && listable then
      match forEntries rel (reachable && searchable) entries acc with
      | .ok acc => .ok (sortBy sortCompare acc)
      | .error e => .error e
    else .error .eacces
termination_by structural baseDir
/-- The loop `for (const entry of entries)` of `listSkillIdsRecursive`, over the entries
that are files and directories: an entry that is a symbolic link is no directory for
`isDirectory()` and the loop passes it by. `reachable` tells whether the paths of the
entries lead to them. -/
def forEntries (rel : List Str) (reachable : Bool) (entries : List Node) (acc : List Str) :
    Except JSError (List Str) :=
  match entries with
  | [] => .ok acc
  | entry :: rest =>
    if startsWithDot entry.name then forEntries rel reachable rest acc
    else if entry.isDirectory then
      let acc1 :=
        if reachable && existsSync entry SKILL_MD then acc ++ [join [SEP] (rel ++ [entry.name])]
        else acc
      match listSkillIdsRecursiveFrom (rel ++ [entry.name]) reachable entry acc1 with
      | .ok acc2 => forEntries rel reachable rest acc2
      | .error e => .error e
    else forEntries rel reachable rest acc
termination_by structural entries
end

/-- `listSkillIdsRecursive(dir)`, with `baseDir = dir` and `acc = []`, for a directory `dir`
that its path leads to. -/
def listSkillIdsRecursive (dir : Node) : Except JSError (List Str) :=
  listSkillIdsRecursiveFrom [] true dir []

/-! ## Catalog builder (`scripts/build-catalog.js`) -/

/-- What the runtime and its libraries supply: the YAML parser
(`yaml.parseDocument(text).toJS()`), `String.prototype.toLowerCase`,
`String.prototype.localeCompare`, and the clock (`new Date().toISOString()`). -/
structure Runtime where
  yaml : Str → Except JSError JSValue
  toLowerCase : Str → Str
  localeCompare : Str → Str → Int
  now : Str

/-- `tag.toLowerCase()`: a `TypeError` on anything but a string. -/
def callToLowerCase (toLowerCase : Str → Str) : JSValue → Except JSError Str
  | .string s => .ok (toLowerCase s)
  | _ => .error .typeError

/-- `tags.map(tag => tag.toLowerCase())`, tag by tag from the left. -/
def mapToLowerCase (toLowerCase : Str → Str) : List JSValue → Except JSError (List Str)
  | [] => .ok []
  | tag :: rest =>
    match callToLowerCase toLowerCase tag with
    | .error e => .error e
    | .ok lowered =>
      match mapToLowerCase toLowerCase rest with
      | .error e => .error e
      | .ok others => .ok (lowered :: others)

/-- `deriveTags(skill)`. -/
def deriveTags (toLowerCase : Str → Str) (skill : SkillRecord) : Except JSError (List Str) :=
  match mapToLowerCase toLowerCase skill.tags with
  | .error e => .error e
  | .ok tags => .ok (tags.filter fun tag => !tag.isEmpty)

/-- A record of the catalog. -/
structure CatalogSkill where
  id : Str
  name : JSValue
  description : JSValue
  tags : List Str
  path : Str

/-- The catalog `buildCatalog` returns. -/
structure Catalog where
  generatedAt : Str
  total : Nat
  skills : List CatalogSkill

/-- `description.replace(/\|/g, '\\|')`. -/
def escapePipes (description : Str) : Str :=
  description.flatMap fun c => if c = 124 then [92, 124] else [c]

/-- `(skill.description || '').replace(/\|/g, '\\|')`: a `TypeError` when the description is
truthy and not a string, as it has no `replace` method. -/
def renderDescription (description : JSValue) : Except JSError Str :=
  match description.or (.string []) with
  | .string s => .ok (escapePipes s)
  | _ => .error .typeError

/-- The table row of one record. -/
def renderRow (skill : CatalogSkill) : Except JSError Str :=
  match renderDescription skill.description with
  | .error e => .error e
  | .ok description =>
    .ok (js "| \x60" ++ skill.id ++ js "\x60 | " ++ description ++ js " | " ++
      join (js ", ") skill.tags ++ js " |")

/-- The loop `for (const skill of catalog.skills)` of `renderCatalogMarkdown`. -/
def renderRows : List CatalogSkill → Except JSError (List Str)
  | [] => .ok []
  | skill :: rest =>
    match renderRow skill with
    | .error e => .error e
    | .ok row =>
      match renderRows rest with
      | .error e => .error e
      | .ok rows => .ok (row :: rows)

/-- `renderCatalogMarkdown(catalog)`. -/
def renderCatalogMarkdown (catalog : Catalog) : Except JSError Str :=
  match renderRows catalog.skills with
  | .error e => .error e
  | .ok rows =>
    .ok (join [LF] ([js "# Factory Skill Catalog", [], js "Generated at: " ++ catalog.generatedAt,
      [], js "Total skills: " ++ js (toString catalog.total), [],
      js "| Skill | Description | Tags |", js "| --- | --- | --- |"] ++ rows))

/-- The part of the disk `buildCatalog` touches, and the console: the node at `SKILLS_DIR`
(if any), the content of `CATALOG.md` (if the file exists), and the lines logged. -/
structure World where
  skills : Option Node
  catalogMd : Option Str
  console : List Str

/-- The loop `for (const skill of skills)` of `buildCatalog`. -/
def catalogSkillsOf (toLowerCase : Str → Str) (root : Str) :
    List SkillRecord → Except JSError (List CatalogSkill)
  | [] => .ok []
  | skill :: rest =>
    match deriveTags toLowerCase skill with
    | .error e => .error e
    | .ok tags =>
      match catalogSkillsOf toLowerCase root rest with
      | .error e => .error e
      | .ok others =>
        .ok ({ id := skill.id, name := skill.name, description := skill.description,
               tags := tags, path := pathRelative root skill.path } :: others)

/-- `skillRelPaths.map(relPath => readSkill(SKILLS_DIR, relPath))`, from the left. -/
def readSkills (yaml : Str → Except JSError JSValue) (readFile : Str → Except JSError Str)
    (skillsDir : Str) : List Str → Except JSError (List SkillRecord)
  | [] => .ok []
  | relPath :: rest =>
    match readSkill yaml readFile skillsDir relPath with
    | .error e => .error e
    | .ok skill =>
      match readSkills yaml readFile skillsDir rest with
      | .error e => .error e
      | .ok others => .ok (skill :: others)

/-- `buildCatalog()`, run with `ROOT = root` in the world `w`: the outcome (an exception, or
the value returned, `none` standing for `undefined`) and the world it leaves. -/
def buildCatalog (rt : Runtime) (root : Str) (w : World) :
    Except JSError (Option Catalog) × World :=
  let skillsDir := pathJoin [root, js "skills"]
  match w.skills with
  | none =>
    (.ok none,
      { w with console := w.console ++ [js "Skills directory not found, skipping catalog build."] })
  | some dir =>
    match listSkillIdsRecursive dir with
    | .error e => (.error e, w)
    | .ok skillRelPaths =>
      match readSkills rt.yaml (readFileSync skillsDir dir) skillsDir skillRelPaths with
      | .error e => (.error e, w)
      | .ok skills =>
        match catalogSkillsOf rt.toLowerCase root skills with
        | .error e => (.error e, w)
        | .ok catalogSkills =>
          let catalog : Catalog := {
            generatedAt := rt.now
            total := catalogSkills.length
            skills := sortBy (fun a b => rt.localeCompare a.id b.id) catalogSkills }
          match renderCatalogMarkdown catalog with
          | .error e => (.error e, w)
          | .ok markdown => (.ok (some catalog), { w with catalogMd := some markdown })

/-! ## Notions the statements use -/

/-- The text after the first line terminator (`\r\n` or `\n`) of a text; empty when the
text has no line terminator. -/
def dropLine : Str → Str
  | [] => []
  | [_] => []
  | c :: d :: rest =>
    if c = LF then d :: rest
    else if c = CR ∧ d = LF then rest
    else dropLine (d :: rest)

/-- The text that follows the first `k` lines and their line terminators. -/
def textAfterLine : Nat → Str → Str
  | 0, s => s
  | k + 1, s => textAfterLine k (dropLine s)

/-- The text with every `\r\n` replaced by `\n`. -/
def crlfToLf : Str → Str
  | [] => []
  | [c] => [c]
  | c :: d :: rest =>
    if c = CR ∧ d = LF then LF :: crlfToLf rest else c :: crlfToLf (d :: rest)

/-- The document has a complete header that line `e` closes: the first line trims to
`---`, and `e` is the first later line that does. -/
def ClosingIndex (content : Str) (e : Nat) : Prop :=
  trim ((splitLines content).headD []) = delimiter ∧ 1 ≤ e ∧ e < (splitLines content).length ∧
    trim ((splitLines content).getD e []) = delimiter ∧
    ∀ j < e, 1 ≤ j → trim ((splitLines content).getD j []) ≠ delimiter

instance (content : Str) (e : Nat) : Decidable (ClosingIndex content e) := by
  unfold ClosingIndex; infer_instance

/-- A name an entry of a directory can have: not empty and without a path separator. -/
def validName (name : Str) : Bool :=
  !name.isEmpty && decide (SEP ∉ name)

mutual
/-- The node and everything below it is a well-formed piece of a file system: every name
is valid and no directory has two entries of the same name. -/
def Node.wellFormed : Node → Bool
  | .file name _ => validName name
  | .dir name _ _ entries _ =>
    validName name && allWellFormed entries && decide ((entries.map Node.name).Nodup)
/-- Every node of the list is well formed. -/
def allWellFormed : List Node → Bool
  | [] => true
  | entry :: rest => entry.wellFormed && allWellFormed rest
end

/-- The tree below the directory is a well-formed piece of a file system (the name of the
directory itself does not matter). -/
def Node.treeWellFormed (dir : Node) : Bool :=
  allWellFormed dir.entries && decide ((dir.entries.map Node.name).Nodup)

mutual
/-- The node is a directory the walk can list, and so is every directory the walk reaches
below it, which takes that its parent can be searched. -/
def Node.walkable : Node → Bool
  | .file _ _ => false
  | .dir _ listable searchable entries _ => listable && allWalkable searchable entries
/-- Every directory of the list that is not hidden is walkable and, its parent being
searchable, can be reached. -/
def allWalkable (searchable : Bool) : List Node → Bool
  | [] => true
  | entry :: rest =>
    (startsWithDot entry.name || !entry.isDirectory || (searchable && entry.walkable)) &&
      allWalkable searchable rest
end

mutual
/-- The skills at and below an entry, each as the list of the names that lead to it. -/
def skillsBelow : Node → List (List Str)
  | .file _ _ => []
  | .dir name listable searchable entries links =>
    if startsWithDot name then []
    else
      (if existsSync (.dir name listable searchable entries links) SKILL_MD then [[name]]
        else []) ++
        (skillsIn entries).map fun segments => name :: segments
/-- The skills below the entries of a directory, in the order of the walk. -/
def skillsIn : List Node → List (List Str)
  | [] => []
  | entry :: rest => skillsBelow entry ++ skillsIn rest
end

/-- Whether the directory has a regular file of that name among its entries. -/
def hasFile (dir : Node) (name : Str) : Bool :=
  dir.entries.any fun e => !e.isDirectory && e.name == name

/-- A definition file without a header. -/
def plainSkillFile : Node := .file SKILL_MD (some (js "A skill."))

/-- A skills directory: `a`, `a/b` and `c` hold a `SKILL.md`, `d` does not, and the hidden
`.git` and `.git/x` hold one each. -/
def sampleTree : Node :=
  .dir (js "skills") true true [
    .dir (js "d") true true [.file (js "README.md") (some [])] [],
    .dir (js "c") true true [plainSkillFile] [],
    .dir (js ".git") true true [plainSkillFile, .dir (js "x") true true [plainSkillFile] []] [],
    .dir (js "a") true true [.dir (js "b") true true [plainSkillFile] [], plainSkillFile] []] []

/-- A skills directory whose only entry `a` holds a directory named `SKILL.md`. -/
def directorySkillTree : Node :=
  .dir (js "skills") true true [.dir (js "a") true true [.dir SKILL_MD true true [] []] []] []

/-- A skills directory whose only entry `a` holds a file `SKILL.md` and can be listed but
not searched (mode 444). -/
def unsearchableSkillTree : Node :=
  .dir (js "skills") true true [.dir (js "a") true false [plainSkillFile] []] []

/-- A skills directory where `a` holds a file `SKILL.md`, `b` a symbolic link `SKILL.md`
that leads to a file, and `c` a symbolic link `SKILL.md` that dangles. -/
def linkedSkillTree : Node :=
  .dir (js "skills") true true [
    .dir (js "a") true true [plainSkillFile] [],
    .dir (js "b") true true [] [(SKILL_MD, some plainSkillFile)],
    .dir (js "c") true true [] [(SKILL_MD, none)]] []

/-- The entry the names lead to from the entries of a directory, each name but the last
being that of a directory among them (the walk does not go through symbolic links). -/
def entryAt : List Node → List Str → Option Node
  | _, [] => none
  | entries, [segment] => entries.find? fun e => e.name == segment
  | entries, segment :: next :: rest =>
    match entries.find? fun e => e.name == segment with
    | some (.dir _ _ _ children _) => entryAt children (next :: rest)
    | _ => none

/-- A lower-casing function for the examples: `toLowerCase` on strings whose only cased
characters are the ASCII letters. -/
def asciiToLowerCase (s : Str) : Str :=
  s.map fun c => if 65 ≤ c ∧ c ≤ 90 then c + 32 else c

/-- A runtime for the examples: a parser that rejects every header, ASCII lower-casing,
comparison by code units, and a fixed clock. -/
def sampleRuntime : Runtime where
  yaml := fun _ => .error .yamlError
  toLowerCase := asciiToLowerCase
  localeCompare := sortCompare
  now := js "2024-01-01T00:00:00.000Z"

/-- The world in which `SKILLS_DIR` holds the sample tree and `CATALOG.md` does not exist. -/
def sampleWorld : World where
  skills := some sampleTree
  catalogMd := none
  console := []

/-- The record of the catalog for a skill without a header. -/
def plainCatalogSkill (id : Str) : CatalogSkill where
  id := id
  name := .string id
  description := .string []
  tags := []
  path := js "skills/" ++ id ++ js "/SKILL.md"

/-- The catalog of the sample tree. -/
def sampleCatalog : Catalog where
  generatedAt := js "2024-01-01T00:00:00.000Z"
  total := 3
  skills := [plainCatalogSkill (js "a"), plainCatalogSkill (js "a/b"), plainCatalogSkill (js "c")]

/-- The cell of the description column for a description that is a string (empty for any
other value). -/
def descriptionText : JSValue → Str
  | .string s => s
  | _ => []

/-- The table row of a record as the catalog document shows it: the id as inline code,
the description with its pipes escaped, the tags joined by a comma and a space. -/
def tableRow (skill : CatalogSkill) : Str :=
  js "| \x60" ++ skill.id ++ js "\x60 | " ++ escapePipes (descriptionText skill.description) ++
    js " | " ++ join (js ", ") skill.tags ++ js " |"

/-- The text with every `\|` replaced by `|`, from left to right. -/
def unescapePipes : Str → Str
  | [] => []
  | [c] => [c]
  | c :: d :: rest =>
    if c = 92 ∧ d = 124 then 124 :: unescapePipes rest else c :: unescapePipes (d :: rest)

/-- The pieces of a text between the occurrences of a code unit. -/
def splitOn (sep : Nat) : Str → List Str
  | [] => [[]]
  | c :: rest => if c = sep then [] :: splitOn sep rest else pushFront c (splitOn sep rest)

/-- The lines of a document whose lines end in `\n`. -/
def textLines (document : Str) : List Str := splitOn LF document

/-- The text with every `\n` replaced by `\r\n`. -/
def lfToCrlf (s : Str) : Str :=
  s.flatMap fun c => if c = LF then [CR, LF] else [c]

/-- The paths of the children of a directory that qualify: the directories whose name does
not start with `.` and that have an entry named `SKILL.md`. -/
def qualifyingChildren (rel : List Str) (entries : List Node) : List Str :=
  (entries.filter fun e =>
    !startsWithDot e.name && e.isDirectory && existsSync e SKILL_MD).map
      fun e => join [SEP] (rel ++ [e.name])

mutual
/-- The pure formulation of the walk, for the directory at `rel`: the paths of its
qualifying children, then the results for its subdirectories that are not hidden. -/
def collectSkillIds (rel : List Str) : Node → List Str
  | .file _ _ => []
  | .dir _ _ _ entries _ => qualifyingChildren rel entries ++ collectBelow rel entries
/-- The results of the pure formulation for the subdirectories, not hidden, among the
entries of the directory at `rel`, one after the other. -/
def collectBelow (rel : List Str) : List Node → List Str
  | [] => []
  | entry :: rest =>
    (if startsWithDot entry.name then [] else collectSkillIds (rel ++ [entry.name]) entry) ++
      collectBelow rel rest
end

/-- The pure formulation of `listSkillIdsRecursive(dir)`: the paths collected without an
accumulator, sorted once at the end. -/
def listSkillIdsPure (dir : Node) : List Str :=
  sortBy sortCompare (collectSkillIds [] dir)

/-- A catalog with the one record `writer`. -/
def writerCatalog : Catalog where
  generatedAt := js "2024-01-01T00:00:00.000Z"
  total := 1
  skills := [{
    id := js "writer"
    name := .string (js "Writer")
    description := .string (js "Writes things")
    tags := [js "text", js "generation"]
    path := js "skills/writer/SKILL.md" }]

/-- A catalog with the one record `report`, whose description is the number 42, as
`buildCatalog` makes it from the header `description: 42`. -/
def numberCatalog : Catalog where
  generatedAt := js "2024-01-01T00:00:00.000Z"
  total := 1
  skills := [{
    id := js "report"
    name := .string (js "report")
    description := .number 42
    tags := []
    path := js "skills/report/SKILL.md" }]

/-- A comparator that, as the collation behind `localeCompare` does, orders letters
alphabetically whatever their case: here, by the code units of the lower-cased strings. -/
def alphabeticCompare (x y : Str) : Int :=
  sortCompare (asciiToLowerCase x) (asciiToLowerCase y)

/-- The sample runtime with the alphabetic comparator. -/
def alphabeticRuntime : Runtime :=
  { sampleRuntime with localeCompare := alphabeticCompare }

/-- A skills directory with the two skills `a` and `B`. -/
def mixedCaseTree : Node :=
  .dir (js "skills") true true
    [.dir (js "a") true true [plainSkillFile] [], .dir (js "B") true true [plainSkillFile] []] []

/-- A skills directory where the definition file of `a` cannot be read and that of `b` is a
directory. -/
def brokenTree : Node :=
  .dir (js "skills") true true [
    .dir (js "a") true true [.file SKILL_MD none] [],
    .dir (js "b") true true [.dir SKILL_MD true true [] []] []] []

/-- A skills directory whose subdirectory `locked` cannot be listed. -/
def lockedTree : Node :=
  .dir (js "skills") true true
    [.dir (js "a") true true [plainSkillFile] [], .dir (js "locked") false true [] []] []

/-- The catalog of the tree with the skills `a` and `B`, in alphabetic order. -/
def mixedCaseCatalog : Catalog where
  generatedAt := js "2024-01-01T00:00:00.000Z"
  total := 2
  skills := [plainCatalogSkill (js "a"), plainCatalogSkill (js "B")]

/-- `typeof v === 'string'`. -/
def JSValue.isString : JSValue → Bool
  | .string _ => true
  | _ => false

/-! ## Lines: lemmas -/

theorem str_induction {motive : Str → Prop} (nil : motive []) (single : ∀ c, motive [c])
    (step : ∀ c d rest, motive rest → motive (d :: rest) → motive (c :: d :: rest)) :
    ∀ s, motive s := by
  have key : ∀ s, motive s ∧ ∀ c, motive (c :: s) := by
    intro s
    induction s with
    | nil => exact ⟨nil, single⟩
    | cons d rest ih => exact ⟨ih.2 d, fun c => step c d rest ih.1 (ih.2 d)⟩
  exact fun s => (key s).1

theorem splitLines_ne_nil (s : Str) : splitLines s ≠ [] := by
  induction s using str_induction with
  | nil => simp [splitLines]
  | single c => simp only [splitLines]; split <;> simp
  | step c d rest ih1 ih2 =>
    simp only [splitLines]
    split
    · simp
    · split
      · simp
      · cases h : splitLines (d :: rest) <;> simp [pushFront]

theorem join_pushFront (c : Nat) (ls : List Str) (h : ls ≠ []) :
    join [LF] (pushFront c ls) = c :: join [LF] ls := by
  match ls, h with
  | [l], _ => simp [pushFront, join]
  | l :: m :: ls, _ => simp [pushFront, join]

theorem join_nil_cons (ls : List Str) (h : ls ≠ []) :
    join [LF] ([] :: ls) = LF :: join [LF] ls := by
  match ls, h with
  | l :: ls, _ => simp [join]

theorem join_splitLines (s : Str) : join [LF] (splitLines s) = crlfToLf s := by
  induction s using str_induction with
  | nil => simp [splitLines, join, crlfToLf]
  | single c =>
    simp only [splitLines]; split
    · subst_vars; simp [join, crlfToLf]
    · simp [join, crlfToLf]
  | step c d rest ih1 ih2 =>
    simp only [splitLines, crlfToLf]
    by_cases h : c = LF
    · have hc : ¬ (c = CR ∧ d = LF) := by
        rintro ⟨h1, _⟩; rw [h] at h1; exact absurd h1 (by decide)
      rw [if_pos h, if_neg hc, join_nil_cons _ (splitLines_ne_nil _), ih2, h]
    · rw [if_neg h]
      by_cases h2 : c = CR ∧ d = LF
      · rw [if_pos h2, if_pos h2, join_nil_cons _ (splitLines_ne_nil _), ih1]
      · rw [if_neg h2, if_neg h2, join_pushFront _ _ (splitLines_ne_nil _), ih2]

theorem length_pushFront (c : Nat) (ls : List Str) (h : ls ≠ []) :
    (pushFront c ls).length = ls.length := by
  cases ls with
  | nil => exact absurd rfl h
  | cons l ls => rfl

theorem tail_pushFront (c : Nat) (ls : List Str) (h : ls ≠ []) :
    (pushFront c ls).tail = ls.tail := by
  cases ls with
  | nil => exact absurd rfl h
  | cons l ls => rfl

/-- Dropping the first line of the text drops the first piece of the split. -/
theorem splitLines_dropLine (s : Str) :
    (2 ≤ (splitLines s).length → splitLines (dropLine s) = (splitLines s).tail) ∧
    ((splitLines s).length < 2 → dropLine s = []) := by
  induction s using str_induction with
  | nil => simp [splitLines, dropLine]
  | single c => simp [dropLine, splitLines]; split <;> simp [splitLines]
  | step c d rest ih1 ih2 =>
    have hne := splitLines_ne_nil (d :: rest)
    have hne1 := splitLines_ne_nil rest
    have hlen : 1 ≤ (splitLines (d :: rest)).length := List.length_pos.mpr hne
    have hlen1 : 1 ≤ (splitLines rest).length := List.length_pos.mpr hne1
    simp only [splitLines, dropLine]
    by_cases h : c = LF
    · simp only [if_pos h, List.tail_cons, List.length_cons]
      exact ⟨fun _ => trivial, fun hh => by omega⟩
    · simp only [if_neg h]
      by_cases h2 : c = CR ∧ d = LF
      · simp only [if_pos h2, List.tail_cons, List.length_cons]
        exact ⟨fun _ => trivial, fun hh => by omega⟩
      · simp only [if_neg h2]
        rw [length_pushFront _ _ hne, tail_pushFront _ _ hne]
        exact ih2

theorem join_drop_splitLines (k : Nat) :
    ∀ s : Str, k ≤ (splitLines s).length →
      join [LF] ((splitLines s).drop k) = crlfToLf (textAfterLine k s) := by
  induction k with
  | zero => intro s _; simpa [textAfterLine] using join_splitLines s
  | succ k ih =>
    intro s hk
    have hsplit := splitLines_dropLine s
    simp only [textAfterLine]
    by_cases h2 : 2 ≤ (splitLines s).length
    · rw [← ih (dropLine s)]
      · rw [hsplit.1 h2, List.drop_tail]
      · rw [hsplit.1 h2]; simp; omega
    · have hk0 : k = 0 := by omega
      subst hk0
      rw [hsplit.2 (by omega), List.drop_of_length_le (by omega)]
      simp [textAfterLine, join, crlfToLf]

/-! ## Frontmatter parser: lemmas -/

theorem findEndIndex_none (ls : List Str) (i : Nat)
    (h : ∀ l ∈ ls, trim l ≠ delimiter) : findEndIndex ls i = none := by
  induction ls generalizing i with
  | nil => rfl
  | cons l ls ih =>
    simp only [findEndIndex]
    rw [if_neg (h l (List.mem_cons_self _ _))]
    exact ih _ fun m hm => h m (List.mem_cons_of_mem _ hm)

theorem findEndIndex_some (ls : List Str) (i k : Nat) (hk : k < ls.length)
    (hd : trim (ls.getD k []) = delimiter)
    (hfirst : ∀ j < k, trim (ls.getD j []) ≠ delimiter) : findEndIndex ls i = some (i + k) := by
  induction ls generalizing i k with
  | nil => simp at hk
  | cons l ls ih =>
    simp only [findEndIndex]
    cases k with
    | zero =>
      have : trim l = delimiter := by simpa using hd
      rw [if_pos this]; rfl
    | succ k =>
      have h0 : trim l ≠ delimiter := by simpa using hfirst 0 (Nat.succ_pos _)
      rw [if_neg h0, ih (i + 1) k (by simpa using hk) (by simpa using hd)]
      · congr 1; omega
      · intro j hj
        simpa using hfirst (j + 1) (by omega)

theorem parseFrontmatter_of_closingIndex (yaml : Str → Except JSError JSValue) (content : Str)
    (e : Nat) (h : ClosingIndex content e) :
    parseFrontmatter yaml content =
      { data := match yaml (join [LF] (slice (splitLines content) 1 e)) with
                | .ok v => v
                | .error _ => .object []
        body := join [LF] ((splitLines content).drop (e + 1)) } := by
  obtain ⟨h0, h1, he, hd, hfirst⟩ := h
  unfold parseFrontmatter
  cases hs : splitLines content with
  | nil => exact absurd hs (splitLines_ne_nil content)
  | cons first rest =>
    rw [hs] at h0 he hd hfirst
    have h0 : trim first = delimiter := by simpa using h0
    obtain ⟨k, rfl⟩ : ∃ k, e = 1 + k := ⟨e - 1, by omega⟩
    have hfind : findEndIndex rest 1 = some (1 + k) := by
      apply findEndIndex_some
      · simp only [List.length_cons] at he; omega
      · simpa [Nat.add_comm 1 k] using hd
      · intro j hj
        simpa using hfirst (j + 1) (by omega) (by omega)
    simp only [h0, ne_eq, not_true_eq_false, if_false, hfind]

theorem crlfToLf_of_not_mem (s : Str) (h : CR ∉ s) : crlfToLf s = s := by
  induction s using str_induction with
  | nil => rfl
  | single c => rfl
  | step c d rest ih1 ih2 =>
    have hc : c ≠ CR := fun hc => h (by simp [hc])
    have hrest : CR ∉ d :: rest := fun hm => h (List.mem_cons_of_mem _ hm)
    simp only [crlfToLf]
    rw [if_neg (fun hh => hc hh.1), ih2 hrest]

theorem parseFrontmatter_of_no_header (yaml : Str → Except JSError JSValue) (content : Str)
    (h : trim ((splitLines content).headD []) ≠ delimiter ∨
      ∀ i, 1 ≤ i → i < (splitLines content).length →
        trim ((splitLines content).getD i []) ≠ delimiter) :
    parseFrontmatter yaml content = { data := .object [], body := content } := by
  unfold parseFrontmatter
  cases hs : splitLines content with
  | nil => rfl
  | cons first rest =>
    rw [hs] at h
    by_cases h0 : trim first = delimiter
    · have hlater : ∀ l ∈ rest, trim l ≠ delimiter := by
        rcases h with h | h
        · exact absurd h0 (by simpa using h)
        · intro l hl
          obtain ⟨i, hi, rfl⟩ := List.getElem_of_mem hl
          have := h (i + 1) (by omega) (by simpa using hi)
          simpa [List.getElem?_eq_getElem hi] using this
      simp [h0, findEndIndex_none rest 1 hlater]
    · simp [h0]

/-! ## Frontmatter parser: the claims -/

/-- C1: when the document has no complete header (its first line, trimmed, is not `---`,
or it is and no later line trims to `---`), `parseFrontmatter` returns the empty mapping
as data and the document itself, unchanged, as body. -/
theorem parseFrontmatter_no_header (yaml : Str → Except JSError JSValue) (content : Str)
    (h : trim ((splitLines content).headD []) ≠ delimiter ∨
      (trim ((splitLines content).headD []) = delimiter ∧
        ∀ i, 1 ≤ i → i < (splitLines content).length →
          trim ((splitLines content).getD i []) ≠ delimiter)) :
    (parseFrontmatter yaml content).data = .object [] ∧
      (parseFrontmatter yaml content).body = content := by
  have hnone := parseFrontmatter_of_no_header yaml content (h.imp id fun hh => hh.2)
  rw [hnone]
  exact ⟨rfl, rfl⟩

/-- C1, at a document with an unterminated header and CR LF line endings. -/
theorem parseFrontmatter_no_header_witness :
    (trim ((splitLines (js "---\r\nname: x\r\nbody")).headD []) = delimiter ∧
      ∀ i < (splitLines (js "---\r\nname: x\r\nbody")).length, 1 ≤ i →
        trim ((splitLines (js "---\r\nname: x\r\nbody")).getD i []) ≠ delimiter) ∧
    (parseFrontmatter (fun _ => .ok .null) (js "---\r\nname: x\r\nbody")).data = .object [] ∧
      (parseFrontmatter (fun _ => .ok .null) (js "---\r\nname: x\r\nbody")).body =
        js "---\r\nname: x\r\nbody" :=
  ⟨by decide, parseFrontmatter_no_header _ _ (by decide)⟩

/-- C2 as stated fails: in `---\n---\na\r\nb` line 1 closes the header and the text after
it is `a\r\nb`, but the body returned is `a\nb`. -/
theorem parseFrontmatter_body_crlf_counterexample :
    ClosingIndex (js "---\n---\na\r\nb") 1 ∧
      (parseFrontmatter (fun _ => .ok (.object [])) (js "---\n---\na\r\nb")).body ≠
        textAfterLine 2 (js "---\n---\na\r\nb") := by
  decide

/-- C2, amended: when line `e` closes the header, the body is the text of the document
after line `e` and its terminator with every CR LF replaced by LF (the lines after line `e`
joined by LF); it is exactly that text when that text has no carriage return. -/
theorem parseFrontmatter_body (yaml : Str → Except JSError JSValue) (content : Str) (e : Nat)
    (h : ClosingIndex content e) :
    (parseFrontmatter yaml content).body = join [LF] ((splitLines content).drop (e + 1)) ∧
      (parseFrontmatter yaml content).body = crlfToLf (textAfterLine (e + 1) content) ∧
      (CR ∉ textAfterLine (e + 1) content →
        (parseFrontmatter yaml content).body = textAfterLine (e + 1) content) := by
  have hbody : (parseFrontmatter yaml content).body =
      join [LF] ((splitLines content).drop (e + 1)) := by
    rw [parseFrontmatter_of_closingIndex yaml content e h]
  have hnorm := join_drop_splitLines (e + 1) content (by have := h.2.2.1; omega)
  refine ⟨hbody, hbody.trans hnorm, fun hcr => ?_⟩
  rw [hbody, hnorm, crlfToLf_of_not_mem _ hcr]

/-- C2 amended, at a document with a header and a two-line body. -/
theorem parseFrontmatter_body_witness :
    ClosingIndex (js "---\nname: x\n---\na\nb") 2 ∧
      (parseFrontmatter (fun _ => .ok .null) (js "---\nname: x\n---\na\nb")).body = js "a\nb" :=
  ⟨by decide, (parseFrontmatter_body _ _ 2 (by decide)).2.2 (by decide)⟩

/-- C3, the code at the failing input: when the parser yields `null` for the empty header
of `---\n---`, `parseFrontmatter` returns `null` as data, not a mapping, and `readSkill`
on a file with that content raises a `TypeError` while reading `data.name`. -/
theorem readSkill_null_header (yaml : Str → Except JSError JSValue)
    (readFile : Str → Except JSError Str) (skillDir skillId : Str)
    (hyaml : yaml [] = .ok .null)
    (hread : readFile (pathJoin [skillDir, skillId, SKILL_MD]) = .ok (js "---\n---")) :
    (parseFrontmatter yaml (js "---\n---")).data = .null ∧
      (parseFrontmatter yaml (js "---\n---")).data.isMapping = false ∧
      readSkill yaml readFile skillDir skillId = .error .typeError := by
  have hdata : (parseFrontmatter yaml (js "---\n---")).data = .null := by
    rw [parseFrontmatter_of_closingIndex yaml _ 1 (by decide)]
    have : join [LF] (slice (splitLines (js "---\n---")) 1 1) = [] := by decide
    simp only [this, hyaml]
  refine ⟨hdata, by rw [hdata]; rfl, ?_⟩
  simp only [readSkill, hread, hdata, JSValue.getProp]

/-- C3 at a parser that yields `null` for every header and a disk whose every file holds
`---\n---`. -/
theorem readSkill_null_header_witness :
    (parseFrontmatter (fun _ => .ok .null) (js "---\n---")).data = .null ∧
      (parseFrontmatter (fun _ => .ok .null) (js "---\n---")).data.isMapping = false ∧
      readSkill (fun _ => .ok .null) (fun _ => .ok (js "---\n---")) (js "skills") (js "a") =
        .error .typeError :=
  readSkill_null_header _ _ _ _ rfl rfl

/-- C4: when the definition file is readable, `readSkill` returns the record with
`id = skillId`, `path = join(skillDir, skillId, 'SKILL.md')` and, the parsed header being
the mapping `d`, `name = d.name` if that is truthy and `skillId` otherwise,
`description = d.description` if that is truthy and `''` otherwise, `tags = d.tags` if that
is a sequence and `[]` otherwise; a file with no header yields `name = skillId`,
`description = ''`, `tags = []`. -/
theorem readSkill_fields (yaml : Str → Except JSError JSValue)
    (readFile : Str → Except JSError Str) (skillDir skillId content : Str)
    (hread : readFile (pathJoin [skillDir, skillId, SKILL_MD]) = .ok content) :
    (∀ d, (parseFrontmatter yaml content).data = .object d →
      readSkill yaml readFile skillDir skillId = .ok {
        id := skillId
        name :=
          if ((d.lookup (js "name")).getD .undefined).truthy then
            (d.lookup (js "name")).getD .undefined
          else .string skillId
        description :=
          if ((d.lookup (js "description")).getD .undefined).truthy then
            (d.lookup (js "description")).getD .undefined
          else .string []
        tags :=
          match d.lookup (js "tags") with
          | some (.array items) => items
          | _ => []
        path := pathJoin [skillDir, skillId, SKILL_MD] }) ∧
    (trim ((splitLines content).headD []) ≠ delimiter →
      readSkill yaml readFile skillDir skillId = .ok {
        id := skillId
        name := .string skillId
        description := .string []
        tags := []
        path := pathJoin [skillDir, skillId, SKILL_MD] }) := by
  constructor
  · intro d hd
    simp only [readSkill, hread, hd, JSValue.getProp, JSValue.or]
    congr 2
    cases h : d.lookup (js "tags") with
    | none => rfl
    | some v => cases v <;> rfl
  · intro h0
    have hd := parseFrontmatter_of_no_header yaml content (Or.inl h0)
    simp only [readSkill, hread, hd, JSValue.getProp, JSValue.or]
    rfl

/-- C4 at a file with the header `name: Writer`, `tags: [text]` and no description. -/
theorem readSkill_fields_witness :
    readSkill
        (fun _ => .ok (.object [(js "name", .string (js "Writer")),
          (js "tags", .array [.string (js "text")])]))
        (fun _ => .ok (js "---\nname: Writer\ntags: [text]\n---\n")) (js "skills") (js "writer") =
      .ok {
        id := js "writer"
        name := .string (js "Writer")
        description := .string []
        tags := [.string (js "text")]
        path := js "skills/writer/SKILL.md" } :=
  (readSkill_fields _ (fun _ => .ok (js "---\nname: Writer\ntags: [text]\n---\n")) (js "skills")
    (js "writer") _ rfl).1
    [(js "name", .string (js "Writer")), (js "tags", .array [.string (js "text")])] (by
      rw [parseFrontmatter_of_closingIndex _ _ 3 (by decide)])

/-! ## Sorting: lemmas -/

theorem strLt_irrefl (a : Str) : strLt a a = false := by
  induction a with
  | nil => rfl
  | cons x xs ih => simp [strLt, ih]

theorem strLt_trichotomy (a b : Str) (h1 : strLt a b = false) (h2 : strLt b a = false) :
    a = b := by
  induction a generalizing b with
  | nil => cases b with
    | nil => rfl
    | cons y ys => simp [strLt] at h1
  | cons x xs ih => cases b with
    | nil => simp [strLt] at h2
    | cons y ys =>
      simp only [strLt] at h1 h2
      by_cases hxy : x < y
      · simp [hxy] at h1
      · by_cases hyx : y < x
        · simp [hyx] at h2
        · simp only [hxy, hyx, if_false] at h1 h2
          have : x = y := by omega
          rw [this, ih ys h1 h2]

theorem strLt_asymm (a b : Str) (h : strLt a b = true) : strLt b a = false := by
  induction a generalizing b with
  | nil => cases b <;> simp [strLt] at h ⊢
  | cons x xs ih => cases b with
    | nil => simp [strLt] at h
    | cons y ys =>
      simp only [strLt] at h ⊢
      by_cases hxy : x < y
      · have : ¬ y < x := by omega
        simp [hxy, this]
      · by_cases hyx : y < x
        · simp [hxy, hyx] at h
        · simp only [hxy, hyx, if_false] at h ⊢
          exact ih ys h

theorem strLt_trans (a b c : Str) (h1 : strLt a b = true) (h2 : strLt b c = true) :
    strLt a c = true := by
  induction a generalizing b c with
  | nil => cases b with
    | nil => simp [strLt] at h1
    | cons y ys => cases c with
      | nil => simp [strLt] at h2
      | cons z zs => simp [strLt]
  | cons x xs ih => cases b with
    | nil => simp [strLt] at h1
    | cons y ys => cases c with
      | nil => simp [strLt] at h2
      | cons z zs =>
        simp only [strLt] at h1 h2 ⊢
        by_cases hxy : x < y
        · by_cases hyz : y < z
          · have : x < z := by omega
            simp [this]
          · by_cases hzy : z < y
            · simp [hyz, hzy] at h2
            · have : x < z := by omega
              simp [this]
        · by_cases hyx : y < x
          · simp [hxy, hyx] at h1
          · simp only [hxy, hyx, if_false] at h1
            have hxy' : x = y := by omega
            subst hxy'
            by_cases hxz : x < z
            · simp [hxz]
            · by_cases hzx : z < x
              · simp [hxz, hzx] at h2
              · simp only [hxz, hzx, if_false] at h2 ⊢
                exact ih ys zs h1 h2

theorem sortCompare_le_iff (a b : Str) : sortCompare a b ≤ 0 ↔ strLt b a = false := by
  unfold sortCompare
  cases hab : strLt a b
  · cases hba : strLt b a <;> simp
  · simp [strLt_asymm a b hab]

theorem sortCompare_total (a b : Str) : sortCompare a b ≤ 0 ∨ sortCompare b a ≤ 0 := by
  rw [sortCompare_le_iff, sortCompare_le_iff]
  cases hba : strLt b a
  · exact Or.inl rfl
  · exact Or.inr (strLt_asymm b a hba)

theorem sortCompare_trans (a b c : Str) (h1 : sortCompare a b ≤ 0) (h2 : sortCompare b c ≤ 0) :
    sortCompare a c ≤ 0 := by
  rw [sortCompare_le_iff] at h1 h2 ⊢
  cases hca : strLt c a
  · rfl
  · cases hbc : strLt a b
    · have hab := strLt_trichotomy a b hbc h1
      subst hab
      rw [hca] at h2; exact h2
    · have := strLt_trans c a b hca hbc
      rw [this] at h2; exact h2

theorem sortBy_perm {α : Type} (compare : α → α → Int) (l : List α) :
    (sortBy compare l).Perm l :=
  List.perm_insertionSort _ l

theorem sortBy_sorted {α : Type} (compare : α → α → Int)
    (total : ∀ a b, compare a b ≤ 0 ∨ compare b a ≤ 0)
    (trans : ∀ a b c, compare a b ≤ 0 → compare b c ≤ 0 → compare a c ≤ 0) (l : List α) :
    (sortBy compare l).Pairwise fun a b => compare a b ≤ 0 := by
  haveI : IsTotal α (fun a b => compare a b ≤ 0) := ⟨total⟩
  haveI : IsTrans α (fun a b => compare a b ≤ 0) := ⟨trans⟩
  exact List.sorted_insertionSort _ l

theorem strictly_ascending_of_sorted_nodup (l : List Str)
    (hs : l.Pairwise fun a b => sortCompare a b ≤ 0) (hn : l.Nodup) :
    l.Pairwise fun a b => strLt a b = true := by
  have := hs.and hn
  refine this.imp ?_
  intro a b ⟨hle, hne⟩
  rw [sortCompare_le_iff] at hle
  cases hab : strLt a b
  · exact absurd (strLt_trichotomy a b hab hle) hne
  · rfl

/-! ## Skill discovery: lemmas -/

theorem allWellFormed_iff (entries : List Node) :
    allWellFormed entries = true ↔ ∀ e ∈ entries, e.wellFormed = true := by
  induction entries with
  | nil => simp [allWellFormed]
  | cons e es ih => simp [allWellFormed, ih]

theorem mem_skillsIn (segments : List Str) (entries : List Node) :
    segments ∈ skillsIn entries ↔ ∃ e ∈ entries, segments ∈ skillsBelow e := by
  induction entries with
  | nil => simp [skillsIn]
  | cons e es ih => simp [skillsIn, ih]

theorem mem_skillsBelow (segments : List Str) (entry : Node) :
    segments ∈ skillsBelow entry ↔
      entry.isDirectory = true ∧ startsWithDot entry.name = false ∧
        ((segments = [entry.name] ∧ existsSync entry SKILL_MD = true) ∨
          ∃ below ∈ skillsIn entry.entries, segments = entry.name :: below) := by
  cases entry with
  | file name content => simp [skillsBelow, Node.isDirectory]
  | dir name listable searchable entries links =>
    simp only [skillsBelow, Node.isDirectory, Node.name, Node.entries, true_and]
    cases hdot : startsWithDot name
    · cases hex : existsSync (Node.dir name listable searchable entries links) SKILL_MD
      · simp [eq_comm]
      · simp [eq_comm]
    · simp

theorem nil_not_mem_skillsIn (entries : List Node) : [] ∉ skillsIn entries := by
  intro h
  obtain ⟨e, _, he⟩ := (mem_skillsIn _ _).1 h
  rcases (mem_skillsBelow _ _).1 he with ⟨_, _, ⟨h1, _⟩ | ⟨_, _, h2⟩⟩
  · exact absurd h1 (by simp)
  · exact absurd h2 (by simp)

mutual
theorem listSkillIdsRecursiveFrom_perm (rel : List Str) (reachable : Bool) (baseDir : Node)
    (acc result : List Str)
    (h : listSkillIdsRecursiveFrom rel reachable baseDir acc = .ok result) :
    reachable = true ∧
      result.Perm (acc ++ (skillsIn baseDir.entries).map fun s => join [SEP] (rel ++ s)) := by
  match baseDir with
  | .file _ _ => simp [listSkillIdsRecursiveFrom] at h
  | .dir name listable searchable entries links =>
    simp only [listSkillIdsRecursiveFrom] at h
    cases reachable with
    | false => simp at h
    | true =>
      cases listable with
      | false => simp at h
      | true =>
        simp only [Bool.and_self, if_true, Bool.true_and] at h
        cases hloop : forEntries rel searchable entries acc with
        | error e => simp [hloop] at h
        | ok acc1 =>
          simp only [hloop, Except.ok.injEq] at h
          subst h
          exact ⟨rfl, (sortBy_perm _ _).trans (forEntries_perm rel searchable entries acc acc1 hloop)⟩
theorem forEntries_perm (rel : List Str) (reachable : Bool) (entries : List Node)
    (acc result : List Str) (h : forEntries rel reachable entries acc = .ok result) :
    result.Perm (acc ++ (skillsIn entries).map fun s => join [SEP] (rel ++ s)) := by
  match entries with
  | [] =>
    simp only [forEntries, Except.ok.injEq] at h
    subst h
    simp [skillsIn]
  | entry :: rest =>
    simp only [forEntries] at h
    have hcons : skillsIn (entry :: rest) = skillsBelow entry ++ skillsIn rest := by
      simp [skillsIn]
    rw [hcons]
    cases entry with
    | file name content =>
      have h2 : forEntries rel reachable rest acc = .ok result := by
        cases hdot : startsWithDot name <;> simpa [Node.name, Node.isDirectory, hdot] using h
      simpa [skillsBelow] using forEntries_perm rel reachable rest acc result h2
    | dir name listable searchable children links =>
      simp only [Node.name, Node.isDirectory] at h
      cases hdot : startsWithDot name with
      | true =>
        simp only [hdot, if_true] at h
        simpa [skillsBelow, hdot] using forEntries_perm rel reachable rest acc result h
      | false =>
        simp only [hdot, if_true, Bool.false_eq_true, if_false] at h
        cases reachable with
        | false => simp [listSkillIdsRecursiveFrom] at h
        | true =>
          simp only [Bool.true_and] at h
          cases hrec : listSkillIdsRecursiveFrom (rel ++ [name]) true
              (.dir name listable searchable children links)
              (if existsSync (.dir name listable searchable children links) SKILL_MD = true then
                acc ++ [join [SEP] (rel ++ [name])] else acc) with
          | error e => simp [hrec] at h
          | ok acc2 =>
            simp only [hrec] at h
            obtain ⟨_, p1⟩ := listSkillIdsRecursiveFrom_perm _ _ _ _ _ hrec
            have p2 := forEntries_perm rel true rest acc2 result h
            refine p2.trans ?_
            simp only [skillsBelow, hdot, Bool.false_eq_true, if_false, List.map_append,
              List.map_map, Node.entries] at p1 ⊢
            have hfun : ((fun s => join [SEP] (rel ++ [name] ++ s)) : List Str → Str) =
                (fun s => join [SEP] (rel ++ s)) ∘ fun segments => name :: segments := by
              funext s; simp
            rw [hfun] at p1
            cases hex : existsSync (.dir name listable searchable children links) SKILL_MD
            · simp only [hex, Bool.false_eq_true, if_false, List.map_nil, List.nil_append]
                at p1 ⊢
              rw [← List.append_assoc]
              exact p1.append_right _
            · simp only [hex, if_true, List.map_cons, List.map_nil] at p1 ⊢
              rw [← List.append_assoc]
              refine List.Perm.append_right _ ?_
              simpa using p1
end

mutual
theorem listSkillIdsRecursiveFrom_ok (rel : List Str) (baseDir : Node) (acc : List Str)
    (h : baseDir.walkable = true) :
    ∃ result, listSkillIdsRecursiveFrom rel true baseDir acc = .ok result := by
  match baseDir with
  | .file _ _ => simp [Node.walkable] at h
  | .dir name listable searchable entries links =>
    simp only [Node.walkable, Bool.and_eq_true] at h
    obtain ⟨acc1, h1⟩ := forEntries_ok rel searchable entries acc h.2
    exact ⟨sortBy sortCompare acc1, by simp [listSkillIdsRecursiveFrom, h.1, h1]⟩
theorem forEntries_ok (rel : List Str) (searchable : Bool) (entries : List Node)
    (acc : List Str) (h : allWalkable searchable entries = true) :
    ∃ result, forEntries rel searchable entries acc = .ok result := by
  match entries with
  | [] => exact ⟨acc, by simp [forEntries]⟩
  | entry :: rest =>
    simp only [allWalkable, Bool.and_eq_true, Bool.or_eq_true, Bool.not_eq_eq_eq_not,
      Bool.not_true] at h
    obtain ⟨hentry, hrest⟩ := h
    simp only [forEntries]
    cases hdot : startsWithDot entry.name with
    | true => simpa using forEntries_ok rel searchable rest acc hrest
    | false =>
      cases hdir : entry.isDirectory with
      | false => simpa using forEntries_ok rel searchable rest acc hrest
      | true =>
        have hw : searchable = true ∧ entry.walkable = true := by
          rcases hentry with (h1 | h1) | h1
          · rw [hdot] at h1; exact absurd h1 (by simp)
          · rw [hdir] at h1; exact absurd h1 (by simp)
          · exact h1
        obtain ⟨hs, hw⟩ := hw
        subst hs
        obtain ⟨acc2, h2⟩ := listSkillIdsRecursiveFrom_ok (rel ++ [entry.name]) entry
          (if (true && existsSync entry SKILL_MD) = true then
            acc ++ [join [SEP] (rel ++ [entry.name])]
            else acc) hw
        obtain ⟨acc3, h3⟩ := forEntries_ok rel true rest acc2 hrest
        exact ⟨acc3, by simp only [Bool.false_eq_true, if_false, if_true, h2, h3]⟩
end

theorem head_of_mem_skillsBelow (segments : List Str) (entry : Node)
    (h : segments ∈ skillsBelow entry) : segments.head? = some entry.name := by
  rcases (mem_skillsBelow _ _).1 h with ⟨_, _, ⟨h1, _⟩ | ⟨_, _, h2⟩⟩
  · rw [h1]; rfl
  · rw [h2]; rfl

mutual
theorem skillsBelow_nodup (entry : Node) (h : entry.wellFormed = true) :
    (skillsBelow entry).Nodup := by
  match entry with
  | .file _ _ => simp [skillsBelow]
  | .dir name listable searchable entries links =>
    simp only [Node.wellFormed, Bool.and_eq_true, decide_eq_true_eq] at h
    obtain ⟨⟨_, hall⟩, hnames⟩ := h
    have ih := skillsIn_nodup entries hall hnames
    simp only [skillsBelow]
    split
    · exact List.nodup_nil
    · have hmap : ((skillsIn entries).map fun segments => name :: segments).Nodup :=
        ih.map fun a b hab => by simpa using hab
      split
      · refine List.Nodup.append (by simp) hmap ?_
        intro x hx1 hx2
        simp only [List.mem_singleton] at hx1
        subst hx1
        simp only [List.mem_map, List.cons.injEq, true_and, exists_eq_right] at hx2
        exact nil_not_mem_skillsIn entries hx2
      · simpa using hmap
theorem skillsIn_nodup (entries : List Node) (h : allWellFormed entries = true)
    (hnames : (entries.map Node.name).Nodup) : (skillsIn entries).Nodup := by
  match entries with
  | [] => simp [skillsIn]
  | entry :: rest =>
    simp only [allWellFormed, Bool.and_eq_true] at h
    simp only [List.map_cons, List.nodup_cons] at hnames
    simp only [skillsIn]
    refine List.Nodup.append (skillsBelow_nodup entry h.1) (skillsIn_nodup rest h.2 hnames.2) ?_
    intro x hx1 hx2
    obtain ⟨e, he, hxe⟩ := (mem_skillsIn _ _).1 hx2
    have h1 := head_of_mem_skillsBelow _ _ hx1
    have h2 := head_of_mem_skillsBelow _ _ hxe
    rw [h1] at h2
    have : entry.name = e.name := by simpa using h2
    exact hnames.1 (this ▸ List.mem_map_of_mem _ he)
end

theorem splitPath_ne_nil (s : Str) : splitPath s ≠ [] := by
  cases s with
  | nil => simp [splitPath]
  | cons c rest =>
    simp only [splitPath]
    split
    · simp
    · cases splitPath rest <;> simp [pushFront]

theorem splitPath_append (s t : Str) (h : SEP ∉ s) :
    splitPath (s ++ SEP :: t) = s :: splitPath t := by
  induction s with
  | nil => simp [splitPath]
  | cons c rest ih =>
    have hc : c ≠ SEP := fun hc => h (by simp [hc])
    have hrest : SEP ∉ rest := fun hm => h (List.mem_cons_of_mem _ hm)
    show splitPath (c :: (rest ++ SEP :: t)) = _
    rw [splitPath, if_neg hc, ih hrest]
    rfl

theorem splitPath_of_not_mem (s : Str) (h : SEP ∉ s) : splitPath s = [s] := by
  induction s with
  | nil => simp [splitPath]
  | cons c rest ih =>
    have hc : c ≠ SEP := fun hc => h (by simp [hc])
    have hrest : SEP ∉ rest := fun hm => h (List.mem_cons_of_mem _ hm)
    rw [splitPath, if_neg hc, ih hrest]
    rfl

theorem splitPath_join (segments : List Str) (hne : segments ≠ [])
    (h : ∀ s ∈ segments, SEP ∉ s) : splitPath (join [SEP] segments) = segments := by
  induction segments with
  | nil => exact absurd rfl hne
  | cons s rest ih =>
    cases rest with
    | nil => simpa [join] using splitPath_of_not_mem s (h s (by simp))
    | cons t rest =>
      have hs := h s (by simp)
      have ih2 := ih (by simp) fun x hx => h x (List.mem_cons_of_mem _ hx)
      simp only [join, List.append_assoc, List.singleton_append]
      rw [splitPath_append _ _ hs, ih2]

theorem validName_not_mem (name : Str) (h : validName name = true) : SEP ∉ name := by
  simp only [validName, Bool.and_eq_true, decide_eq_true_eq] at h
  exact h.2

theorem find_of_mem (entries : List Node) (entry : Node) (hmem : entry ∈ entries)
    (hnames : (entries.map Node.name).Nodup) :
    (entries.find? fun e => e.name == entry.name) = some entry := by
  induction entries with
  | nil => simp at hmem
  | cons e es ih =>
    simp only [List.map_cons, List.nodup_cons] at hnames
    rcases List.mem_cons.1 hmem with rfl | hmem
    · simp [List.find?_cons]
    · have hne : e.name ≠ entry.name := fun heq =>
        hnames.1 (heq ▸ List.mem_map_of_mem _ hmem)
      have hb : (e.name == entry.name) = false := by simpa using hne
      rw [List.find?_cons, hb]
      exact ih hmem hnames.2

theorem mem_of_find (entries : List Node) (segment : Str) (child : Node)
    (h : (entries.find? fun e => e.name == segment) = some child) :
    child ∈ entries ∧ child.name = segment := by
  refine ⟨List.mem_of_find?_eq_some h, ?_⟩
  have := List.find?_some h
  simpa using this

/-- Under a well-formed tree, the skills found are the paths of the visible directories
in which `existsSync` finds `SKILL.md`. -/
theorem mem_skillsIn_iff (segments : List Str) :
    ∀ (entries : List Node), allWellFormed entries = true →
      (entries.map Node.name).Nodup →
      (segments ∈ skillsIn entries ↔
        (∀ c ∈ segments, startsWithDot c = false) ∧
          ∃ D, entryAt entries segments = some D ∧
            D.isDirectory = true ∧ existsSync D SKILL_MD = true) := by
  induction segments with
  | nil =>
    intro entries _ _
    simp [nil_not_mem_skillsIn, entryAt]
  | cons c cs ih =>
    intro entries hwf hnames
    constructor
    · intro hmem
      obtain ⟨e, he, hbelow⟩ := (mem_skillsIn _ _).1 hmem
      obtain ⟨hdir, hdot, hcase⟩ := (mem_skillsBelow _ _).1 hbelow
      have hfind := find_of_mem entries e he hnames
      have hewf := (allWellFormed_iff entries).1 hwf e he
      cases e with
      | file n content => simp [Node.isDirectory] at hdir
      | dir n l s children links =>
        simp only [Node.name, Node.entries] at hdot hcase
        have hfind : (entries.find? fun e => e.name == n) = some (.dir n l s children links) :=
          hfind
        simp only [Node.wellFormed, Bool.and_eq_true, decide_eq_true_eq] at hewf
        rcases hcase with ⟨heq, hex⟩ | ⟨below, hb, heq⟩
        · simp only [List.cons.injEq] at heq
          obtain ⟨rfl, rfl⟩ := heq
          refine ⟨by simpa using hdot, .dir c l s children links, ?_, rfl, hex⟩
          simp only [entryAt, hfind]
        · simp only [List.cons.injEq] at heq
          obtain ⟨rfl, rfl⟩ := heq
          obtain ⟨hvis, D, hD, hDdir, hDex⟩ := (ih children hewf.1.2 hewf.2).1 hb
          refine ⟨?_, D, ?_, hDdir, hDex⟩
          · intro x hx
            rcases List.mem_cons.1 hx with rfl | hx
            · exact hdot
            · exact hvis x hx
          · cases cs with
            | nil => exact absurd hb (nil_not_mem_skillsIn children)
            | cons d rest =>
              simp only [entryAt, hfind]
              exact hD
    · rintro ⟨hvis, D, hD, hDdir, hDex⟩
      refine (mem_skillsIn _ _).2 ?_
      cases cs with
      | nil =>
        simp only [entryAt] at hD
        obtain ⟨hmem, hname⟩ := mem_of_find entries c D hD
        refine ⟨D, hmem, (mem_skillsBelow _ _).2 ⟨hDdir, ?_, Or.inl ⟨by rw [hname], hDex⟩⟩⟩
        rw [hname]; exact hvis c (by simp)
      | cons d rest =>
        simp only [entryAt] at hD
        cases hfind : entries.find? fun e => e.name == c with
        | none => simp [hfind] at hD
        | some child =>
          obtain ⟨hmem, hname⟩ := mem_of_find entries c child hfind
          have hcwf := (allWellFormed_iff entries).1 hwf child hmem
          cases child with
          | file n content => simp [hfind] at hD
          | dir n l s children links =>
            simp only [hfind] at hD
            simp only [Node.name] at hname
            subst hname
            simp only [Node.wellFormed, Bool.and_eq_true, decide_eq_true_eq] at hcwf
            refine ⟨.dir n l s children links, hmem, (mem_skillsBelow _ _).2
              ⟨rfl, hvis n (by simp), Or.inr ⟨d :: rest, ?_, rfl⟩⟩⟩
            refine (ih children hcwf.1.2 hcwf.2).2 ⟨?_, D, hD, hDdir, hDex⟩
            intro x hx
            exact hvis x (List.mem_cons_of_mem _ hx)

theorem valid_of_mem_skillsIn (segments : List Str) :
    ∀ (entries : List Node), allWellFormed entries = true → segments ∈ skillsIn entries →
      ∀ c ∈ segments, validName c = true := by
  induction segments with
  | nil => intro _ _ _ c hc; simp at hc
  | cons c cs ih =>
    intro entries hwf hmem
    obtain ⟨e, he, hbelow⟩ := (mem_skillsIn _ _).1 hmem
    obtain ⟨hdir, _, hcase⟩ := (mem_skillsBelow _ _).1 hbelow
    have hewf := (allWellFormed_iff entries).1 hwf e he
    cases e with
    | file n content => simp [Node.isDirectory] at hdir
    | dir n l s children links =>
      simp only [Node.name, Node.entries] at hcase
      simp only [Node.wellFormed, Bool.and_eq_true, decide_eq_true_eq] at hewf
      rcases hcase with ⟨heq, _⟩ | ⟨below, hb, heq⟩
      · simp only [List.cons.injEq] at heq
        obtain ⟨rfl, rfl⟩ := heq
        intro x hx
        simp only [List.mem_singleton] at hx
        subst hx
        exact hewf.1.1
      · simp only [List.cons.injEq] at heq
        obtain ⟨rfl, rfl⟩ := heq
        intro x hx
        rcases List.mem_cons.1 hx with rfl | hx
        · exact hewf.1.1
        · exact ih children hewf.1.2 hb x hx

theorem join_injOn_skillsIn (entries : List Node) (hwf : allWellFormed entries = true)
    (a b : List Str) (ha : a ∈ skillsIn entries) (hb : b ∈ skillsIn entries)
    (h : join [SEP] a = join [SEP] b) : a = b := by
  have hane : a ≠ [] := fun h0 => nil_not_mem_skillsIn entries (h0 ▸ ha)
  have hbne : b ≠ [] := fun h0 => nil_not_mem_skillsIn entries (h0 ▸ hb)
  have hav := fun s hs => validName_not_mem s (valid_of_mem_skillsIn a entries hwf ha s hs)
  have hbv := fun s hs => validName_not_mem s (valid_of_mem_skillsIn b entries hwf hb s hs)
  rw [← splitPath_join a hane hav, ← splitPath_join b hbne hbv, h]

/-- What `listSkillIdsRecursive` returns: a rearrangement of the paths of the skills. -/
theorem listSkillIdsRecursive_perm (dir : Node) (result : List Str)
    (h : listSkillIdsRecursive dir = .ok result) :
    result.Perm ((skillsIn dir.entries).map (join [SEP])) := by
  simpa using (listSkillIdsRecursiveFrom_perm [] true dir [] result h).2

theorem listSkillIdsRecursive_sorted (dir : Node) (result : List Str)
    (h : listSkillIdsRecursive dir = .ok result) :
    result.Pairwise fun a b => sortCompare a b ≤ 0 := by
  unfold listSkillIdsRecursive at h
  cases dir with
  | file _ _ => simp [listSkillIdsRecursiveFrom] at h
  | dir name listable searchable entries links =>
    simp only [listSkillIdsRecursiveFrom] at h
    cases listable with
    | false => simp at h
    | true =>
      simp only [Bool.and_self, if_true, Bool.true_and] at h
      cases hloop : forEntries [] searchable entries [] with
      | error e => simp [hloop] at h
      | ok acc1 =>
        simp only [hloop, Except.ok.injEq] at h
        subst h
        exact sortBy_sorted _ sortCompare_total sortCompare_trans _

theorem listSkillIdsRecursive_nodup (dir : Node) (result : List Str)
    (hwf : dir.treeWellFormed = true) (h : listSkillIdsRecursive dir = .ok result) :
    result.Nodup := by
  simp only [Node.treeWellFormed, Bool.and_eq_true, decide_eq_true_eq] at hwf
  refine (listSkillIdsRecursive_perm dir result h).nodup_iff.2 ?_
  exact List.Nodup.map_on (fun a ha b hb hab => join_injOn_skillsIn _ hwf.1 a b ha hb hab)
    (skillsIn_nodup _ hwf.1 hwf.2)

theorem valid_of_entryAt (segments : List Str) :
    ∀ (entries : List Node) (D : Node), allWellFormed entries = true →
      entryAt entries segments = some D → ∀ c ∈ segments, validName c = true := by
  induction segments with
  | nil => intro _ _ _ _ c hc; simp at hc
  | cons c cs ih =>
    intro entries D hwf hD
    have hfirst : ∀ child, (entries.find? fun e => e.name == c) = some child →
        validName c = true := by
      intro child hfind
      obtain ⟨hmem, hname⟩ := mem_of_find entries c child hfind
      have hcwf := (allWellFormed_iff entries).1 hwf child hmem
      cases child with
      | file n content =>
        simp only [Node.name] at hname
        simpa [Node.wellFormed, hname] using hcwf
      | dir n l s children links =>
        simp only [Node.name] at hname
        simp only [Node.wellFormed, Bool.and_eq_true] at hcwf
        rw [← hname]; exact hcwf.1.1
    cases cs with
    | nil =>
      simp only [entryAt] at hD
      intro x hx
      simp only [List.mem_singleton] at hx
      subst hx
      exact hfirst D hD
    | cons d rest =>
      simp only [entryAt] at hD
      cases hfind : entries.find? fun e => e.name == c with
      | none => simp [hfind] at hD
      | some child =>
        have hc := hfirst child hfind
        obtain ⟨hmem, _⟩ := mem_of_find entries c child hfind
        have hcwf := (allWellFormed_iff entries).1 hwf child hmem
        cases child with
        | file n content => simp [hfind] at hD
        | dir n l s children links =>
          simp only [hfind] at hD
          simp only [Node.wellFormed, Bool.and_eq_true] at hcwf
          intro x hx
          rcases List.mem_cons.1 hx with rfl | hx
          · exact hc
          · exact ih children D hcwf.1.2 hD x hx

theorem existsSync_iff (dir : Node) (name : Str) :
    existsSync dir name = true ↔
      dir.searchable = true ∧
        ((∃ e ∈ dir.entries, e.name = name) ∨ ∃ target, (name, some target) ∈ dir.links) := by
  simp only [existsSync, Bool.and_eq_true, Bool.or_eq_true, List.any_eq_true, beq_iff_eq,
    Option.isSome_iff_exists]
  constructor
  · rintro ⟨hs, h | ⟨⟨n, t⟩, hmem, hn, target, ht⟩⟩
    · exact ⟨hs, Or.inl h⟩
    · simp only at hn ht
      subst hn ht
      exact ⟨hs, Or.inr ⟨target, hmem⟩⟩
  · rintro ⟨hs, h | ⟨target, hmem⟩⟩
    · exact ⟨hs, Or.inl h⟩
    · exact ⟨hs, Or.inr ⟨(name, some target), hmem, rfl, target, rfl⟩⟩

/-- The skills `listSkillIdsRecursive` returns from a well-formed tree it can walk. -/
theorem listSkillIdsRecursive_spec (dir : Node) (hwf : dir.treeWellFormed = true)
    (hwalk : dir.walkable = true) :
    ∃ result, listSkillIdsRecursive dir = .ok result ∧
      (∀ p, p ∈ result ↔ ∃ segments ∈ skillsIn dir.entries, p = join [SEP] segments) ∧
      (result.Pairwise fun a b => strLt a b = true) := by
  obtain ⟨result, hres⟩ := listSkillIdsRecursiveFrom_ok [] dir [] hwalk
  refine ⟨result, hres, ?_, ?_⟩
  · intro p
    rw [(listSkillIdsRecursive_perm dir result hres).mem_iff]
    simp [eq_comm]
  · exact strictly_ascending_of_sorted_nodup result (listSkillIdsRecursive_sorted dir result hres)
      (listSkillIdsRecursive_nodup dir result hwf hres)

/-! ## Skill discovery: the claims -/

/-- C5 as stated fails, both ways: where the directory `a` holds a directory named
`SKILL.md` and no file of that name, `listSkillIdsRecursive` returns `['a']`; and where `a`
holds a file named `SKILL.md` but can be listed and not searched, it returns `[]`. -/
theorem listSkillIdsRecursive_directory_counterexample :
    (directorySkillTree.treeWellFormed = true ∧ directorySkillTree.walkable = true ∧
      listSkillIdsRecursive directorySkillTree = .ok [js "a"] ∧
      entryAt directorySkillTree.entries [js "a"] =
        some (.dir (js "a") true true [.dir SKILL_MD true true [] []] []) ∧
      ¬ (join [SEP] [js "a"] ∈ [js "a"] ↔
        hasFile (.dir (js "a") true true [.dir SKILL_MD true true [] []] []) SKILL_MD = true)) ∧
    (unsearchableSkillTree.treeWellFormed = true ∧ unsearchableSkillTree.walkable = true ∧
      listSkillIdsRecursive unsearchableSkillTree = .ok [] ∧
      entryAt unsearchableSkillTree.entries [js "a"] =
        some (.dir (js "a") true false [plainSkillFile] []) ∧
      ¬ (join [SEP] [js "a"] ∈ ([] : List Str) ↔
        hasFile (.dir (js "a") true false [plainSkillFile] []) SKILL_MD = true)) :=
  ⟨⟨by decide, by decide, rfl, rfl, by decide⟩, ⟨by decide, by decide, rfl, rfl, by decide⟩⟩

/-- C5, amended: from a well-formed tree it can walk, `listSkillIdsRecursive` returns a
sequence that holds the relative path of a directory `D` strictly below `dir`, reached
through names none of which starts with `.`, if and only if `fs.existsSync` finds
`SKILL.md` in `D`, which is when `D` can be searched and holds an entry of that name that is
a file, a directory, or a symbolic link that does not dangle, whether or not the parent of
`D` qualified; and the sequence holds nothing else. -/
theorem listSkillIdsRecursive_complete (dir : Node) (hwf : dir.treeWellFormed = true)
    (hwalk : dir.walkable = true) :
    ∃ result, listSkillIdsRecursive dir = .ok result ∧
      (∀ segments D, (∀ c ∈ segments, startsWithDot c = false) →
        entryAt dir.entries segments = some D → D.isDirectory = true →
        (join [SEP] segments ∈ result ↔
          D.searchable = true ∧
            ((∃ e ∈ D.entries, e.name = SKILL_MD) ∨
              ∃ target, (SKILL_MD, some target) ∈ D.links))) ∧
      (∀ p ∈ result, ∃ segments D, (∀ c ∈ segments, startsWithDot c = false) ∧
        entryAt dir.entries segments = some D ∧ D.isDirectory = true ∧
        existsSync D SKILL_MD = true ∧ p = join [SEP] segments) := by
  obtain ⟨result, hres, hmem, _⟩ := listSkillIdsRecursive_spec dir hwf hwalk
  simp only [Node.treeWellFormed, Bool.and_eq_true, decide_eq_true_eq] at hwf
  refine ⟨result, hres, ?_, ?_⟩
  · intro segments D hvis hD hDdir
    rw [hmem, ← existsSync_iff]
    have hne : segments ≠ [] := by
      intro h0
      rw [h0] at hD
      simp [entryAt] at hD
    constructor
    · rintro ⟨found, hfound, heq⟩
      have hv1 := fun s hs =>
        validName_not_mem s (valid_of_entryAt segments dir.entries D hwf.1 hD s hs)
      have hv2 := fun s hs =>
        validName_not_mem s (valid_of_mem_skillsIn found dir.entries hwf.1 hfound s hs)
      have hfne : found ≠ [] := fun h0 => nil_not_mem_skillsIn dir.entries (h0 ▸ hfound)
      have hsame : segments = found := by
        rw [← splitPath_join segments hne hv1, ← splitPath_join found hfne hv2, heq]
      subst hsame
      obtain ⟨_, D2, hD2, _, hex⟩ :=
        (mem_skillsIn_iff segments dir.entries hwf.1 hwf.2).1 hfound
      rw [hD] at hD2
      simp only [Option.some.injEq] at hD2
      rw [hD2]; exact hex
    · intro hex
      exact ⟨segments, (mem_skillsIn_iff segments dir.entries hwf.1 hwf.2).2
        ⟨hvis, D, hD, hDdir, hex⟩, rfl⟩
  · intro p hp
    obtain ⟨segments, hseg, rfl⟩ := (hmem p).1 hp
    obtain ⟨hvis, D, hD, hDdir, hex⟩ :=
      (mem_skillsIn_iff segments dir.entries hwf.1 hwf.2).1 hseg
    exact ⟨segments, D, hvis, hD, hDdir, hex, rfl⟩

/-- C5 amended, at the tree where `a`, `a/b` and `c` hold `SKILL.md` and `d` does not: the
result is `['a', 'a/b', 'c']`; and at the tree where `SKILL.md` is a file in `a`, a link to a
file in `b` and a dangling link in `c`: the result is `['a', 'b']`. -/
theorem listSkillIdsRecursive_complete_witness :
    sampleTree.treeWellFormed = true ∧ sampleTree.walkable = true ∧
      listSkillIdsRecursive sampleTree = .ok [js "a", js "a/b", js "c"] ∧
      listSkillIdsRecursive linkedSkillTree = .ok [js "a", js "b"] ∧
      ∃ result, listSkillIdsRecursive sampleTree = .ok result ∧
        (∀ segments D, (∀ c ∈ segments, startsWithDot c = false) →
          entryAt sampleTree.entries segments = some D → D.isDirectory = true →
          (join [SEP] segments ∈ result ↔
            D.searchable = true ∧
              ((∃ e ∈ D.entries, e.name = SKILL_MD) ∨
                ∃ target, (SKILL_MD, some target) ∈ D.links))) ∧
        (∀ p ∈ result, ∃ segments D, (∀ c ∈ segments, startsWithDot c = false) ∧
          entryAt sampleTree.entries segments = some D ∧ D.isDirectory = true ∧
          existsSync D SKILL_MD = true ∧ p = join [SEP] segments) :=
  ⟨by decide, by decide, rfl, rfl,
    listSkillIdsRecursive_complete sampleTree (by decide) (by decide)⟩

/-- C6: from a well-formed tree it can walk, whatever the order in which the entries of
each directory are listed, `listSkillIdsRecursive` returns a sequence that is strictly
ascending in code-unit lexicographic order: sorted, and without a path twice. -/
theorem listSkillIdsRecursive_strictly_ascending (dir : Node)
    (hwf : dir.treeWellFormed = true) (hwalk : dir.walkable = true) :
    ∃ result, listSkillIdsRecursive dir = .ok result ∧
      (result.Pairwise fun a b => strLt a b = true) ∧
      (result.Pairwise fun a b => sortCompare a b ≤ 0) ∧ result.Nodup := by
  obtain ⟨result, hres, _, hasc⟩ := listSkillIdsRecursive_spec dir hwf hwalk
  exact ⟨result, hres, hasc, listSkillIdsRecursive_sorted dir result hres,
    listSkillIdsRecursive_nodup dir result hwf hres⟩

/-- C6 at the sample tree, whose entries are listed in the order `d`, `c`, `.git`, `a`. -/
theorem listSkillIdsRecursive_strictly_ascending_witness :
    sampleTree.treeWellFormed = true ∧ sampleTree.walkable = true ∧
      ∃ result, listSkillIdsRecursive sampleTree = .ok result ∧
        (result.Pairwise fun a b => strLt a b = true) ∧
        (result.Pairwise fun a b => sortCompare a b ≤ 0) ∧ result.Nodup :=
  ⟨by decide, by decide,
    listSkillIdsRecursive_strictly_ascending sampleTree (by decide) (by decide)⟩

/-- C7: from a well-formed tree it can walk, no path `listSkillIdsRecursive` returns has a
segment that starts with `.`: a hidden directory never appears, nor does a directory
inside one. -/
theorem listSkillIdsRecursive_no_hidden (dir : Node) (hwf : dir.treeWellFormed = true)
    (hwalk : dir.walkable = true) :
    ∃ result, listSkillIdsRecursive dir = .ok result ∧
      ∀ p ∈ result, ∀ c ∈ splitPath p, startsWithDot c = false := by
  obtain ⟨result, hres, hmem, _⟩ := listSkillIdsRecursive_spec dir hwf hwalk
  simp only [Node.treeWellFormed, Bool.and_eq_true, decide_eq_true_eq] at hwf
  refine ⟨result, hres, ?_⟩
  intro p hp
  obtain ⟨segments, hseg, rfl⟩ := (hmem p).1 hp
  obtain ⟨hvis, _⟩ := (mem_skillsIn_iff segments dir.entries hwf.1 hwf.2).1 hseg
  have hne : segments ≠ [] := fun h0 => nil_not_mem_skillsIn dir.entries (h0 ▸ hseg)
  have hv := fun s hs =>
    validName_not_mem s (valid_of_mem_skillsIn segments dir.entries hwf.1 hseg s hs)
  rw [splitPath_join segments hne hv]
  exact hvis

/-- C7 at the sample tree, where `.git` and `.git/x` each hold a `SKILL.md`. -/
theorem listSkillIdsRecursive_no_hidden_witness :
    sampleTree.treeWellFormed = true ∧ sampleTree.walkable = true ∧
      existsSync
        (.dir (js ".git") true true [plainSkillFile, .dir (js "x") true true [plainSkillFile] []] [])
        SKILL_MD = true ∧
      ∃ result, listSkillIdsRecursive sampleTree = .ok result ∧
        ∀ p ∈ result, ∀ c ∈ splitPath p, startsWithDot c = false :=
  ⟨by decide, by decide, by decide,
    listSkillIdsRecursive_no_hidden sampleTree (by decide) (by decide)⟩

/-! ## Catalog builder: lemmas -/

theorem mapToLowerCase_strings (toLowerCase : Str → Str) (tags : List Str) :
    mapToLowerCase toLowerCase (tags.map .string) = .ok (tags.map toLowerCase) := by
  induction tags with
  | nil => rfl
  | cons t ts ih => simp [mapToLowerCase, callToLowerCase, ih]

theorem asciiToLowerCase_idem (s : Str) :
    asciiToLowerCase (asciiToLowerCase s) = asciiToLowerCase s := by
  simp only [asciiToLowerCase, List.map_map]
  apply List.map_congr_left
  intro c _
  simp only [Function.comp]
  by_cases h : 65 ≤ c ∧ c ≤ 90
  · rw [if_pos h, if_neg (by omega)]
  · rw [if_neg h, if_neg h]

theorem readSkill_id (yaml : Str → Except JSError JSValue) (readFile : Str → Except JSError Str)
    (skillDir skillId : Str) (skill : SkillRecord)
    (h : readSkill yaml readFile skillDir skillId = .ok skill) : skill.id = skillId := by
  unfold readSkill at h
  cases hread : readFile (pathJoin [skillDir, skillId, SKILL_MD]) with
  | error e => simp [hread] at h
  | ok content =>
    simp only [hread] at h
    split at h
    · simp only [Except.ok.injEq] at h
      rw [← h]
    · simp at h
    · simp at h
    · simp at h

theorem readSkills_forall₂ (yaml : Str → Except JSError JSValue)
    (readFile : Str → Except JSError Str) (skillsDir : Str) (ids : List Str) :
    ∀ skills, readSkills yaml readFile skillsDir ids = .ok skills →
      List.Forall₂ (fun id skill => readSkill yaml readFile skillsDir id = .ok skill)
        ids skills := by
  induction ids with
  | nil =>
    intro skills h
    simp only [readSkills, Except.ok.injEq] at h
    subst h
    exact List.Forall₂.nil
  | cons id rest ih =>
    intro skills h
    simp only [readSkills] at h
    cases h1 : readSkill yaml readFile skillsDir id with
    | error e => simp [h1] at h
    | ok skill =>
      cases h2 : readSkills yaml readFile skillsDir rest with
      | error e => simp [h1, h2] at h
      | ok others =>
        simp only [h1, h2, Except.ok.injEq] at h
        subst h
        exact List.Forall₂.cons h1 (ih others h2)

theorem catalogSkillsOf_forall₂ (toLowerCase : Str → Str) (root : Str)
    (skills : List SkillRecord) :
    ∀ records, catalogSkillsOf toLowerCase root skills = .ok records →
      List.Forall₂ (fun (skill : SkillRecord) (record : CatalogSkill) =>
        record.id = skill.id ∧ record.name = skill.name ∧
          record.description = skill.description ∧
          deriveTags toLowerCase skill = .ok record.tags ∧
          record.path = pathRelative root skill.path) skills records := by
  induction skills with
  | nil =>
    intro records h
    simp only [catalogSkillsOf, Except.ok.injEq] at h
    subst h
    exact List.Forall₂.nil
  | cons skill rest ih =>
    intro records h
    simp only [catalogSkillsOf] at h
    cases h1 : deriveTags toLowerCase skill with
    | error e => simp [h1] at h
    | ok tags =>
      cases h2 : catalogSkillsOf toLowerCase root rest with
      | error e => simp [h1, h2] at h
      | ok others =>
        simp only [h1, h2, Except.ok.injEq] at h
        subst h
        exact List.Forall₂.cons ⟨rfl, rfl, rfl, h1, rfl⟩ (ih others h2)

/-- What a run of `buildCatalog` that returns a catalog went through. -/
theorem buildCatalog_ok (rt : Runtime) (root : Str) (w : World) (catalog : Catalog)
    (h : (buildCatalog rt root w).1 = .ok (some catalog)) :
    ∃ dir ids skills records,
      w.skills = some dir ∧ listSkillIdsRecursive dir = .ok ids ∧
      readSkills rt.yaml (readFileSync (pathJoin [root, js "skills"]) dir)
        (pathJoin [root, js "skills"]) ids = .ok skills ∧
      catalogSkillsOf rt.toLowerCase root skills = .ok records ∧
      catalog = {
        generatedAt := rt.now
        total := records.length
        skills := sortBy (fun a b => rt.localeCompare a.id b.id) records } := by
  unfold buildCatalog at h
  cases hs : w.skills with
  | none => simp [hs] at h
  | some dir =>
    simp only [hs] at h
    cases h1 : listSkillIdsRecursive dir with
    | error e => simp [h1] at h
    | ok ids =>
      simp only [h1] at h
      cases h2 : readSkills rt.yaml (readFileSync (pathJoin [root, js "skills"]) dir)
          (pathJoin [root, js "skills"]) ids with
      | error e => simp [h2] at h
      | ok skills =>
        simp only [h2] at h
        cases h3 : catalogSkillsOf rt.toLowerCase root skills with
        | error e => simp [h3] at h
        | ok records =>
          simp only [h3] at h
          refine ⟨dir, ids, skills, records, rfl, h1, h2, h3, ?_⟩
          split at h
          · simp at h
          · simp only [Except.ok.injEq, Option.some.injEq] at h
            exact h.symm

theorem forall₂_map_eq {α β γ : Type} (R : α → β → Prop) (f : α → γ) (g : β → γ)
    (hR : ∀ a b, R a b → f a = g b) (l1 : List α) (l2 : List β) (h : List.Forall₂ R l1 l2) :
    l1.map f = l2.map g := by
  induction h with
  | nil => rfl
  | cons hab _ ih => simp [hR _ _ hab, ih]

theorem forall₂_exists_left {α β : Type} (R : α → β → Prop) (l1 : List α) (l2 : List β)
    (h : List.Forall₂ R l1 l2) (b : β) (hb : b ∈ l2) : ∃ a ∈ l1, R a b := by
  induction h with
  | nil => simp at hb
  | cons hab _ ih =>
    rcases List.mem_cons.1 hb with rfl | hb
    · exact ⟨_, List.mem_cons_self _ _, hab⟩
    · obtain ⟨a, ha, hr⟩ := ih hb
      exact ⟨a, List.mem_cons_of_mem _ ha, hr⟩

/-! ## Catalog builder: the claims -/

/-- C8: on a record whose tags are strings, `deriveTags` returns the tags lower-cased, the
empty ones removed, in their order; every tag returned is non-empty and, lower-casing a
lower-cased string changing nothing, equal to its own lower-case form. -/
theorem deriveTags_strings (toLowerCase : Str → Str) (skill : SkillRecord) (tags : List Str)
    (htags : skill.tags = tags.map .string)
    (hidem : ∀ s, toLowerCase (toLowerCase s) = toLowerCase s) :
    deriveTags toLowerCase skill =
        .ok ((tags.map toLowerCase).filter fun tag => !tag.isEmpty) ∧
      ∀ tag ∈ (tags.map toLowerCase).filter fun tag => !tag.isEmpty,
        tag ≠ [] ∧ toLowerCase tag = tag := by
  constructor
  · simp only [deriveTags, htags, mapToLowerCase_strings]
  · intro tag htag
    obtain ⟨hmem, hne⟩ := List.mem_filter.1 htag
    obtain ⟨s, _, rfl⟩ := List.mem_map.1 hmem
    refine ⟨?_, hidem s⟩
    intro h0
    rw [h0] at hne
    simp at hne

/-- C8 at the tags `['Foo', 'BAR', '']`, which give `['foo', 'bar']`. -/
theorem deriveTags_strings_witness :
    deriveTags asciiToLowerCase
        { id := js "a", name := .string (js "a"), description := .string [],
          tags := [.string (js "Foo"), .string (js "BAR"), .string (js "")],
          path := js "skills/a/SKILL.md" } = .ok [js "foo", js "bar"] ∧
      ∀ tag ∈ [js "foo", js "bar"], tag ≠ [] ∧ asciiToLowerCase tag = tag :=
  deriveTags_strings asciiToLowerCase _ [js "Foo", js "BAR", js ""] rfl asciiToLowerCase_idem

/-- C9: when `buildCatalog` returns a catalog, the ids of its records are a rearrangement
of the ids `listSkillIdsRecursive` returned (pairwise distinct in a well-formed tree),
`total` is the number of records and of ids discovered, and each record carries the name
and description `readSkill` produced for its id and the tags `deriveTags` produced from
that record. -/
theorem buildCatalog_records (rt : Runtime) (root : Str) (w : World) (catalog : Catalog)
    (h : (buildCatalog rt root w).1 = .ok (some catalog)) :
    ∃ dir ids, w.skills = some dir ∧ listSkillIdsRecursive dir = .ok ids ∧
      (catalog.skills.map fun r => r.id).Perm ids ∧
      (dir.treeWellFormed = true → (catalog.skills.map fun r => r.id).Nodup) ∧
      catalog.total = catalog.skills.length ∧ catalog.total = ids.length ∧
      ∀ r ∈ catalog.skills, ∃ skill,
        readSkill rt.yaml (readFileSync (pathJoin [root, js "skills"]) dir)
          (pathJoin [root, js "skills"]) r.id = .ok skill ∧
        r.name = skill.name ∧ r.description = skill.description ∧
        deriveTags rt.toLowerCase skill = .ok r.tags := by
  obtain ⟨dir, ids, skills, records, hdir, hids, hread, hrecs, rfl⟩ :=
    buildCatalog_ok rt root w catalog h
  have f1 := readSkills_forall₂ _ _ _ ids skills hread
  have f2 := catalogSkillsOf_forall₂ _ _ skills records hrecs
  have hsort := sortBy_perm (fun a b : CatalogSkill => rt.localeCompare a.id b.id) records
  have e1 : ids.map id = skills.map fun s => s.id :=
    forall₂_map_eq _ id (fun s : SkillRecord => s.id)
      (fun a b hab => (readSkill_id _ _ _ a b hab).symm) ids skills f1
  have e2 : (skills.map fun s => s.id) = records.map fun r => r.id :=
    forall₂_map_eq _ (fun s : SkillRecord => s.id) (fun r : CatalogSkill => r.id)
      (fun a b hab => hab.1.symm) skills records f2
  have hperm : ((sortBy (fun a b : CatalogSkill => rt.localeCompare a.id b.id) records).map
      fun r => r.id).Perm ids := by
    have := hsort.map fun r : CatalogSkill => r.id
    rw [← e2, ← e1, List.map_id] at this
    exact this
  have hlen : records.length = ids.length := by
    have := congrArg List.length (e1.trans e2)
    simpa using this.symm
  refine ⟨dir, ids, hdir, hids, hperm, ?_, ?_, hlen, ?_⟩
  · intro hwf
    exact hperm.nodup_iff.2 (listSkillIdsRecursive_nodup dir ids hwf hids)
  · exact hsort.length_eq.symm
  · intro r hr
    have hr2 : r ∈ records := hsort.mem_iff.1 hr
    obtain ⟨skill, hskill, hrel⟩ := forall₂_exists_left _ _ _ f2 r hr2
    obtain ⟨id, _, hid⟩ := forall₂_exists_left _ _ _ f1 skill hskill
    have : r.id = id := by rw [hrel.1, readSkill_id _ _ _ _ _ hid]
    exact ⟨skill, by rw [this]; exact hid, hrel.2.1, hrel.2.2.1, hrel.2.2.2.1⟩

set_option maxRecDepth 100000 in
/-- C9 at the sample tree, whose catalog has the three records `a`, `a/b` and `c`. -/
theorem buildCatalog_records_witness :
    (buildCatalog sampleRuntime (js "/repo") sampleWorld).1 = .ok (some sampleCatalog) ∧
    ∃ dir ids, sampleWorld.skills = some dir ∧ listSkillIdsRecursive dir = .ok ids ∧
      (sampleCatalog.skills.map fun r => r.id).Perm ids ∧
      (dir.treeWellFormed = true → (sampleCatalog.skills.map fun r => r.id).Nodup) ∧
      sampleCatalog.total = sampleCatalog.skills.length ∧ sampleCatalog.total = ids.length ∧
      ∀ r ∈ sampleCatalog.skills, ∃ skill,
        readSkill sampleRuntime.yaml (readFileSync (pathJoin [js "/repo", js "skills"]) dir)
          (pathJoin [js "/repo", js "skills"]) r.id = .ok skill ∧
        r.name = skill.name ∧ r.description = skill.description ∧
        deriveTags sampleRuntime.toLowerCase skill = .ok r.tags :=
  ⟨rfl, buildCatalog_records sampleRuntime (js "/repo") sampleWorld sampleCatalog rfl⟩

/-- C10: when `buildCatalog` returns a catalog and `localeCompare` is a consistent
comparator (total and transitive), the records are in ascending order of id: of two
consecutive records, and of any two records, the earlier one does not come after the later
one under `localeCompare`. -/
theorem buildCatalog_sorted (rt : Runtime) (root : Str) (w : World) (catalog : Catalog)
    (htotal : ∀ a b, rt.localeCompare a b ≤ 0 ∨ rt.localeCompare b a ≤ 0)
    (htrans : ∀ a b c, rt.localeCompare a b ≤ 0 → rt.localeCompare b c ≤ 0 →
      rt.localeCompare a c ≤ 0)
    (h : (buildCatalog rt root w).1 = .ok (some catalog)) :
    (catalog.skills.Chain' fun a b => rt.localeCompare a.id b.id ≤ 0) ∧
      catalog.skills.Pairwise fun a b => rt.localeCompare a.id b.id ≤ 0 := by
  obtain ⟨dir, ids, skills, records, _, _, _, _, rfl⟩ := buildCatalog_ok rt root w catalog h
  have hsorted := sortBy_sorted (fun a b : CatalogSkill => rt.localeCompare a.id b.id)
    (fun a b => htotal a.id b.id) (fun a b c => htrans a.id b.id c.id) records
  exact ⟨List.Pairwise.chain' hsorted, hsorted⟩

set_option maxRecDepth 100000 in
/-- C10 at the sample tree, with comparison by code units. -/
theorem buildCatalog_sorted_witness :
    (buildCatalog sampleRuntime (js "/repo") sampleWorld).1 = .ok (some sampleCatalog) ∧
      (sampleCatalog.skills.Chain' fun a b => sampleRuntime.localeCompare a.id b.id ≤ 0) ∧
      sampleCatalog.skills.Pairwise fun a b => sampleRuntime.localeCompare a.id b.id ≤ 0 :=
  ⟨rfl, buildCatalog_sorted sampleRuntime (js "/repo") sampleWorld sampleCatalog
    sortCompare_total sortCompare_trans rfl⟩

/-! ## Catalog renderer: lemmas -/

theorem renderDescription_eq (description : JSValue)
    (h : (∃ s, description = .string s) ∨ description.truthy = false) :
    renderDescription description = .ok (escapePipes (descriptionText description)) := by
  rcases h with ⟨s, rfl⟩ | h
  · cases s with
    | nil => rfl
    | cons c rest => rfl
  · cases description with
    | string s =>
      have hs : s = [] := by simpa [JSValue.truthy] using h
      subst hs
      rfl
    | bool b =>
      have hb : b = false := by simpa [JSValue.truthy] using h
      subst hb
      rfl
    | number n =>
      have hn : n = 0 := by simpa [JSValue.truthy] using h
      subst hn
      rfl
    | array items => simp [JSValue.truthy] at h
    | object props => simp [JSValue.truthy] at h
    | undefined => rfl
    | null => rfl
    | nan => rfl

theorem renderRows_eq (skills : List CatalogSkill)
    (h : ∀ r ∈ skills, (∃ s, r.description = .string s) ∨ r.description.truthy = false) :
    renderRows skills = .ok (skills.map tableRow) := by
  induction skills with
  | nil => rfl
  | cons r rest ih =>
    have hr := renderDescription_eq r.description (h r (List.mem_cons_self _ _))
    have hrest := ih fun x hx => h x (List.mem_cons_of_mem _ hx)
    simp only [renderRows, renderRow, hr, hrest, List.map_cons, tableRow]

theorem head_escapePipes (s : Str) : (escapePipes s).head? ≠ some 124 := by
  cases s with
  | nil => simp [escapePipes]
  | cons c rest =>
    by_cases hc : c = 124
    · simp [escapePipes, hc]
    · simp [escapePipes, hc]

theorem unescapePipes_cons (c : Nat) (t : Str) (h : t.head? ≠ some 124) :
    unescapePipes (c :: t) = c :: unescapePipes t := by
  cases t with
  | nil => rfl
  | cons d rest =>
    have hd : d ≠ 124 := by simpa using h
    simp only [unescapePipes]
    rw [if_neg (fun hh => hd hh.2)]

theorem escapePipes_cons (c : Nat) (s : Str) :
    escapePipes (c :: s) = (if c = 124 then [92, 124] else [c]) ++ escapePipes s := by
  simp [escapePipes]

/-! ## Catalog renderer: the claims -/

/-- C11 as stated fails: on the catalog whose one record has the number 42 as its
description, `renderCatalogMarkdown` raises a `TypeError` and returns no line. -/
theorem renderCatalogMarkdown_number_counterexample :
    renderCatalogMarkdown numberCatalog = .error .typeError ∧
      (∀ r ∈ numberCatalog.skills, r.description = .number 42) :=
  ⟨rfl, by
    intro r hr
    simp only [numberCatalog, List.mem_singleton] at hr
    subst hr
    rfl⟩

/-- C11, amended: for a catalog in which every description is a string (or falsy, which
prints as empty), `renderCatalogMarkdown` returns the title, the `Generated at:` line, the
`Total skills:` line and the two lines of the table header, with empty lines as the source
puts them, followed by one row per record in the order of `catalog.skills`, all joined by
`\n`; the row of a record is its id as inline code, its description with the pipes
escaped, and its tags joined by `, `. -/
theorem renderCatalogMarkdown_lines (catalog : Catalog)
    (h : ∀ r ∈ catalog.skills,
      (∃ s, r.description = .string s) ∨ r.description.truthy = false) :
    renderCatalogMarkdown catalog =
      .ok (join [LF] ([js "# Factory Skill Catalog", js "",
        js "Generated at: " ++ catalog.generatedAt, js "",
        js "Total skills: " ++ js (toString catalog.total), js "",
        js "| Skill | Description | Tags |", js "| --- | --- | --- |"] ++
        catalog.skills.map fun skill =>
          js "| \x60" ++ skill.id ++ js "\x60 | " ++
            escapePipes (descriptionText skill.description) ++ js " | " ++
            join (js ", ") skill.tags ++ js " |")) := by
  simp only [renderCatalogMarkdown, renderRows_eq catalog.skills h]
  rfl

set_option maxRecDepth 100000 in
/-- C11 amended, at the catalog with the one record `writer`, description `Writes things`, tags
`text` and `generation`. -/
theorem renderCatalogMarkdown_lines_witness :
    renderCatalogMarkdown writerCatalog =
      .ok (js ("# Factory Skill Catalog\n\nGenerated at: 2024-01-01T00:00:00.000Z\n\n" ++
        "Total skills: 1\n\n| Skill | Description | Tags |\n| --- | --- | --- |\n" ++
        "| \x60writer\x60 | Writes things | text, generation |")) :=
  (renderCatalogMarkdown_lines writerCatalog (by
    intro r hr
    simp only [writerCatalog, List.mem_singleton] at hr
    subst hr
    exact Or.inl ⟨_, rfl⟩)).trans (congrArg Except.ok (by decide))

/-- C12: the description cell of a description string has every `|` written as `\|` and
every other code unit unchanged; every `|` of the cell comes directly after a backslash;
and replacing each `\|` of the cell by `|` gives the description back. -/
theorem renderDescription_escape (description : Str) :
    renderDescription (.string description) = .ok (escapePipes description) ∧
      escapePipes description =
        description.flatMap (fun c => if c = 124 then [92, 124] else [c]) ∧
      (∀ i, (escapePipes description)[i]? = some 124 →
        ∃ j, i = j + 1 ∧ (escapePipes description)[j]? = some 92) ∧
      unescapePipes (escapePipes description) = description := by
  refine ⟨renderDescription_eq _ (Or.inl ⟨_, rfl⟩), rfl, ?_, ?_⟩
  · induction description with
    | nil => intro i hi; simp [escapePipes] at hi
    | cons c rest ih =>
      intro i hi
      rw [escapePipes_cons] at hi ⊢
      by_cases hc : c = 124
      · simp only [hc, if_true, List.cons_append, List.nil_append] at hi ⊢
        match i, hi with
        | 0, hi => simp at hi
        | 1, _ => exact ⟨0, rfl, rfl⟩
        | i + 2, hi =>
          obtain ⟨j, hj, hj2⟩ := ih i (by simpa using hi)
          exact ⟨j + 2, by omega, by simpa using hj2⟩
      · simp only [hc, if_false, List.cons_append, List.nil_append] at hi ⊢
        match i, hi with
        | 0, hi => exact absurd (by simpa using hi) hc
        | i + 1, hi =>
          obtain ⟨j, hj, hj2⟩ := ih i (by simpa using hi)
          exact ⟨j + 1, by omega, by simpa using hj2⟩
  · induction description with
    | nil => rfl
    | cons c rest ih =>
      rw [escapePipes_cons]
      by_cases hc : c = 124
      · simp only [hc, if_true, List.cons_append, List.nil_append]
        cases hrest : escapePipes rest with
        | nil =>
          rw [hrest] at ih
          simp only [unescapePipes]
          simpa [unescapePipes] using ih
        | cons d t =>
          rw [hrest] at ih
          simp only [unescapePipes, true_and, and_self, if_true, ih]
      · simp only [hc, if_false, List.cons_append, List.nil_append]
        rw [unescapePipes_cons c _ (head_escapePipes rest), ih]

/-- C13: when the skills directory does not exist, `buildCatalog` returns `undefined`
without raising and leaves the disk as it was: `CATALOG.md` is neither created nor
changed. -/
theorem buildCatalog_missing_root (rt : Runtime) (root : Str) (w : World)
    (h : w.skills = none) :
    (buildCatalog rt root w).1 = .ok none ∧
      (buildCatalog rt root w).2.catalogMd = w.catalogMd ∧
      (buildCatalog rt root w).2.skills = w.skills := by
  simp [buildCatalog, h]

/-- C13 at a world without a skills directory and with a catalog from an earlier run. -/
theorem buildCatalog_missing_root_witness :
    (buildCatalog sampleRuntime (js "/repo") ⟨none, some (js "old"), []⟩).1 = .ok none ∧
      (buildCatalog sampleRuntime (js "/repo") ⟨none, some (js "old"), []⟩).2.catalogMd =
        some (js "old") ∧
      (buildCatalog sampleRuntime (js "/repo") ⟨none, some (js "old"), []⟩).2.skills = none :=
  buildCatalog_missing_root sampleRuntime (js "/repo") ⟨none, some (js "old"), []⟩ rfl

/-! ## Catalog builder: failures and the clock -/

theorem readSkill_read_error (yaml : Str → Except JSError JSValue)
    (readFile : Str → Except JSError Str) (skillDir skillId : Str) (e : JSError)
    (h : readFile (pathJoin [skillDir, skillId, SKILL_MD]) = .error e) :
    readSkill yaml readFile skillDir skillId = .error e := by
  simp only [readSkill, h]

theorem readSkills_error_first (yaml : Str → Except JSError JSValue)
    (readFile : Str → Except JSError Str) (skillsDir : Str) (before : List Str) (id : Str)
    (after : List Str) (e : JSError)
    (hbefore : ∀ p ∈ before, ∃ s, readSkill yaml readFile skillsDir p = .ok s)
    (hid : readSkill yaml readFile skillsDir id = .error e) :
    readSkills yaml readFile skillsDir (before ++ id :: after) = .error e := by
  induction before with
  | nil => simp only [List.nil_append, readSkills, hid]
  | cons p rest ih =>
    obtain ⟨s, hs⟩ := hbefore p (List.mem_cons_self _ _)
    have := ih fun q hq => hbefore q (List.mem_cons_of_mem _ hq)
    show readSkills yaml readFile skillsDir (p :: (rest ++ id :: after)) = _
    simp only [readSkills, hs, this]

theorem readSkills_error_of_mem (yaml : Str → Except JSError JSValue)
    (readFile : Str → Except JSError Str) (skillsDir : Str) (ids : List Str) (id : Str)
    (e : JSError) (hmem : id ∈ ids) (hid : readSkill yaml readFile skillsDir id = .error e) :
    ∃ e', readSkills yaml readFile skillsDir ids = .error e' := by
  induction ids with
  | nil => simp at hmem
  | cons p rest ih =>
    simp only [readSkills]
    cases hp : readSkill yaml readFile skillsDir p with
    | error e1 => exact ⟨e1, rfl⟩
    | ok s =>
      rcases List.mem_cons.1 hmem with rfl | hmem
      · rw [hid] at hp; cases hp
      · obtain ⟨e2, h2⟩ := ih hmem
        exact ⟨e2, by simp only [h2]⟩

theorem buildCatalog_error_world (rt : Runtime) (root : Str) (w : World) (e : JSError)
    (h : (buildCatalog rt root w).1 = .error e) : (buildCatalog rt root w).2 = w := by
  unfold buildCatalog at h ⊢
  cases hs : w.skills with
  | none => simp [hs] at h
  | some dir =>
    simp only [hs] at h ⊢
    cases h1 : listSkillIdsRecursive dir with
    | error e1 => rfl
    | ok ids =>
      simp only [h1] at h ⊢
      cases h2 : readSkills rt.yaml (readFileSync (pathJoin [root, js "skills"]) dir)
          (pathJoin [root, js "skills"]) ids with
      | error e2 => rfl
      | ok skills =>
        simp only [h2] at h ⊢
        cases h3 : catalogSkillsOf rt.toLowerCase root skills with
        | error e3 => rfl
        | ok records =>
          simp only [h3] at h ⊢
          split at h
          · rename_i e4 h4
            simp only [h4]
          · simp at h

theorem buildCatalog_read_error (rt : Runtime) (root : Str) (w : World) (dir : Node)
    (ids : List Str) (e : JSError) (hdir : w.skills = some dir)
    (hids : listSkillIdsRecursive dir = .ok ids)
    (hread : readSkills rt.yaml (readFileSync (pathJoin [root, js "skills"]) dir)
      (pathJoin [root, js "skills"]) ids = .error e) :
    buildCatalog rt root w = (.error e, w) := by
  simp only [buildCatalog, hdir, hids, hread]

/-- C14 as stated fails: in the tree where the definition file of `a` cannot be read and
that of `b` is a directory, both skills are discovered and reading the definition file of
`b` fails with `EISDIR`, but `buildCatalog` fails with the `EACCES` met at `a`. -/
theorem buildCatalog_which_error_counterexample :
    listSkillIdsRecursive brokenTree = .ok [js "a", js "b"] ∧
      readFileSync (pathJoin [js "/repo", js "skills"]) brokenTree
        (pathJoin [pathJoin [js "/repo", js "skills"], js "b", SKILL_MD]) = .error .eisdir ∧
      (buildCatalog sampleRuntime (js "/repo") ⟨some brokenTree, some (js "old"), []⟩).1 =
        .error .eacces ∧
      (buildCatalog sampleRuntime (js "/repo") ⟨some brokenTree, some (js "old"), []⟩).1 ≠
        .error .eisdir :=
  ⟨rfl, rfl, rfl, fun h => by
    have h2 : (Except.error JSError.eacces : Except JSError (Option Catalog)) =
        .error .eisdir := h
    cases h2⟩

/-- C14, amended: `buildCatalog` is all-or-nothing. If listing a directory fails, it fails
with that error. If the listing succeeds and reading the definition file of a discovered
skill fails, it fails, and with that error when `readSkill` succeeded for every id before
it in the order of discovery. Whenever it fails it returns no catalog and leaves the disk,
`CATALOG.md` included, exactly as it was. -/
theorem buildCatalog_all_or_nothing (rt : Runtime) (root : Str) (w : World) (dir : Node)
    (hdir : w.skills = some dir) :
    (∀ e, listSkillIdsRecursive dir = .error e → buildCatalog rt root w = (.error e, w)) ∧
    (∀ ids, listSkillIdsRecursive dir = .ok ids →
      ∀ before id after e, ids = before ++ id :: after →
        readFileSync (pathJoin [root, js "skills"]) dir
          (pathJoin [pathJoin [root, js "skills"], id, SKILL_MD]) = .error e →
        (∃ e', buildCatalog rt root w = (.error e', w)) ∧
        ((∀ p ∈ before, ∃ s, readSkill rt.yaml (readFileSync (pathJoin [root, js "skills"]) dir)
            (pathJoin [root, js "skills"]) p = .ok s) →
          buildCatalog rt root w = (.error e, w))) ∧
    (∀ e, (buildCatalog rt root w).1 = .error e →
      (buildCatalog rt root w).2 = w ∧ (buildCatalog rt root w).2.catalogMd = w.catalogMd) := by
  refine ⟨?_, ?_, ?_⟩
  · intro e he
    simp only [buildCatalog, hdir, he]
  · intro ids hids before id after e hsplit hread
    have hskill := readSkill_read_error rt.yaml
      (readFileSync (pathJoin [root, js "skills"]) dir) (pathJoin [root, js "skills"]) id e hread
    constructor
    · obtain ⟨e', he'⟩ := readSkills_error_of_mem rt.yaml
        (readFileSync (pathJoin [root, js "skills"]) dir) (pathJoin [root, js "skills"]) ids id e
        (by rw [hsplit]; simp) hskill
      exact ⟨e', buildCatalog_read_error rt root w dir ids e' hdir hids he'⟩
    · intro hbefore
      apply buildCatalog_read_error rt root w dir ids e hdir hids
      rw [hsplit]
      exact readSkills_error_first _ _ _ before id after e hbefore hskill
  · intro e he
    have := buildCatalog_error_world rt root w e he
    exact ⟨this, by rw [this]⟩

/-- C14 amended, at a tree with an unreadable definition file and at a tree with a
directory that cannot be listed, each with a catalog from an earlier run on the disk. -/
theorem buildCatalog_all_or_nothing_witness :
    buildCatalog sampleRuntime (js "/repo") ⟨some brokenTree, some (js "old"), []⟩ =
        (.error .eacces, ⟨some brokenTree, some (js "old"), []⟩) ∧
      buildCatalog sampleRuntime (js "/repo") ⟨some lockedTree, some (js "old"), []⟩ =
        (.error .eacces, ⟨some lockedTree, some (js "old"), []⟩) :=
  ⟨((buildCatalog_all_or_nothing sampleRuntime (js "/repo")
      ⟨some brokenTree, some (js "old"), []⟩ brokenTree rfl).2.1 [js "a", js "b"] rfl
      [] (js "a") [js "b"] .eacces rfl rfl).2 (by simp),
    (buildCatalog_all_or_nothing sampleRuntime (js "/repo")
      ⟨some lockedTree, some (js "old"), []⟩ lockedTree rfl).1 .eacces rfl⟩

theorem splitOn_append (sep : Nat) (s t : Str) (h : sep ∉ s) :
    splitOn sep (s ++ sep :: t) = s :: splitOn sep t := by
  induction s with
  | nil => simp [splitOn]
  | cons c rest ih =>
    have hc : c ≠ sep := fun hc => h (by simp [hc])
    have hrest : sep ∉ rest := fun hm => h (List.mem_cons_of_mem _ hm)
    show splitOn sep (c :: (rest ++ sep :: t)) = _
    rw [splitOn, if_neg hc, ih hrest]
    rfl

/-- The lines of a rendered catalog: the title, an empty line, the `Generated at:` line,
and then lines that do not depend on the time. -/
theorem textLines_markdown (generatedAt : Str) (more : List Str) (h : LF ∉ generatedAt) :
    textLines (join [LF] ([js "# Factory Skill Catalog", [], js "Generated at: " ++ generatedAt,
        []] ++ more)) =
      js "# Factory Skill Catalog" :: [] :: (js "Generated at: " ++ generatedAt) ::
        textLines (join [LF] ([] :: more)) := by
  have h0 : LF ∉ js "# Factory Skill Catalog" := by decide
  have h2 : LF ∉ js "Generated at: " ++ generatedAt := by
    intro hm
    rcases List.mem_append.1 hm with hm | hm
    · exact absurd hm (by decide)
    · exact h hm
  have hjoin : join [LF] ([js "# Factory Skill Catalog", [], js "Generated at: " ++ generatedAt,
      []] ++ more) =
      js "# Factory Skill Catalog" ++ LF :: ([] ++ LF ::
        ((js "Generated at: " ++ generatedAt) ++ LF :: join [LF] ([] :: more))) := by
    simp [join]
  rw [textLines, hjoin, splitOn_append LF _ _ h0, splitOn_append LF _ _ (by simp),
    splitOn_append LF _ _ h2]
  rfl

/-- What a run of `buildCatalog` that returns a catalog wrote. -/
theorem buildCatalog_written (rt : Runtime) (root : Str) (w : World) (catalog : Catalog)
    (h : (buildCatalog rt root w).1 = .ok (some catalog)) :
    ∃ dir ids skills records rows,
      w.skills = some dir ∧ listSkillIdsRecursive dir = .ok ids ∧
      readSkills rt.yaml (readFileSync (pathJoin [root, js "skills"]) dir)
        (pathJoin [root, js "skills"]) ids = .ok skills ∧
      catalogSkillsOf rt.toLowerCase root skills = .ok records ∧
      renderRows (sortBy (fun a b => rt.localeCompare a.id b.id) records) = .ok rows ∧
      (buildCatalog rt root w).2.catalogMd =
        some (join [LF] ([js "# Factory Skill Catalog", [], js "Generated at: " ++ rt.now, []] ++
          ([js "Total skills: " ++ js (toString records.length), [],
            js "| Skill | Description | Tags |", js "| --- | --- | --- |"] ++ rows))) := by
  obtain ⟨dir, ids, skills, records, hdir, hids, hread, hrecs, _⟩ :=
    buildCatalog_ok rt root w catalog h
  cases hrows : renderRows (sortBy (fun a b => rt.localeCompare a.id b.id) records) with
  | error e =>
    simp [buildCatalog, hdir, hids, hread, hrecs, renderCatalogMarkdown, hrows] at h
  | ok rows =>
    refine ⟨dir, ids, skills, records, rows, hdir, hids, hread, hrecs, hrows, ?_⟩
    simp [buildCatalog, hdir, hids, hread, hrecs, renderCatalogMarkdown, hrows]

theorem buildCatalog_of_steps (rt : Runtime) (root : Str) (w : World) (dir : Node)
    (ids : List Str) (skills : List SkillRecord) (records : List CatalogSkill) (rows : List Str)
    (hdir : w.skills = some dir) (hids : listSkillIdsRecursive dir = .ok ids)
    (hread : readSkills rt.yaml (readFileSync (pathJoin [root, js "skills"]) dir)
      (pathJoin [root, js "skills"]) ids = .ok skills)
    (hrecs : catalogSkillsOf rt.toLowerCase root skills = .ok records)
    (hrows : renderRows (sortBy (fun a b => rt.localeCompare a.id b.id) records) = .ok rows) :
    (buildCatalog rt root w).1 = .ok (some {
        generatedAt := rt.now
        total := records.length
        skills := sortBy (fun a b => rt.localeCompare a.id b.id) records }) ∧
      (buildCatalog rt root w).2.catalogMd =
        some (join [LF] ([js "# Factory Skill Catalog", [], js "Generated at: " ++ rt.now, []] ++
          ([js "Total skills: " ++ js (toString records.length), [],
            js "| Skill | Description | Tags |", js "| --- | --- | --- |"] ++ rows))) := by
  simp [buildCatalog, hdir, hids, hread, hrecs, renderCatalogMarkdown, hrows]

/-- C15: two runs of `buildCatalog` over the same skills tree, the clock reading `rt.now` at
the first and `later` at the second (neither reading holding a line feed), both write a
document, and the two documents have the same number of lines and the same lines except
the third, which is `Generated at: ` followed by the reading of the clock. -/
theorem buildCatalog_clock (rt : Runtime) (root : Str) (w1 w2 : World) (later : Str)
    (catalog : Catalog) (hskills : w2.skills = w1.skills) (hnow : LF ∉ rt.now)
    (hlater : LF ∉ later) (h : (buildCatalog rt root w1).1 = .ok (some catalog)) :
    ∃ catalog2 m1 m2,
      (buildCatalog { rt with now := later } root w2).1 = .ok (some catalog2) ∧
      (buildCatalog rt root w1).2.catalogMd = some m1 ∧
      (buildCatalog { rt with now := later } root w2).2.catalogMd = some m2 ∧
      (textLines m1).length = (textLines m2).length ∧
      (∀ i, i ≠ 2 → (textLines m1)[i]? = (textLines m2)[i]?) ∧
      (textLines m1)[2]? = some (js "Generated at: " ++ rt.now) ∧
      (textLines m2)[2]? = some (js "Generated at: " ++ later) := by
  obtain ⟨dir, ids, skills, records, rows, hdir, hids, hread, hrecs, hrows, hm1⟩ :=
    buildCatalog_written rt root w1 catalog h
  obtain ⟨hc2, hm2⟩ := buildCatalog_of_steps { rt with now := later } root w2 dir ids skills
    records rows (hskills.trans hdir) hids hread hrecs hrows
  refine ⟨_, _, _, hc2, hm1, hm2, ?_, ?_, ?_, ?_⟩
  · rw [textLines_markdown _ _ hnow, textLines_markdown _ _ hlater]
    rfl
  · intro i hi
    rw [textLines_markdown _ _ hnow, textLines_markdown _ _ hlater]
    match i, hi with
    | 0, _ => rfl
    | 1, _ => rfl
    | 2, hi => exact absurd rfl hi
    | i + 3, _ => rfl
  · rw [textLines_markdown _ _ hnow]; rfl
  · rw [textLines_markdown _ _ hlater]; rfl

set_option maxRecDepth 100000 in
/-- C15 at the sample tree: a first run, and a second run a year later in the world the
first run left. -/
theorem buildCatalog_clock_witness :
    (buildCatalog sampleRuntime (js "/repo") sampleWorld).1 = .ok (some sampleCatalog) ∧
    ∃ catalog2 m1 m2,
      (buildCatalog { sampleRuntime with now := js "2025-01-01T00:00:00.000Z" } (js "/repo")
        (buildCatalog sampleRuntime (js "/repo") sampleWorld).2).1 = .ok (some catalog2) ∧
      (buildCatalog sampleRuntime (js "/repo") sampleWorld).2.catalogMd = some m1 ∧
      (buildCatalog { sampleRuntime with now := js "2025-01-01T00:00:00.000Z" } (js "/repo")
        (buildCatalog sampleRuntime (js "/repo") sampleWorld).2).2.catalogMd = some m2 ∧
      (textLines m1).length = (textLines m2).length ∧
      (∀ i, i ≠ 2 → (textLines m1)[i]? = (textLines m2)[i]?) ∧
      (textLines m1)[2]? = some (js "Generated at: " ++ sampleRuntime.now) ∧
      (textLines m2)[2]? = some (js "Generated at: " ++ js "2025-01-01T00:00:00.000Z") :=
  ⟨rfl, buildCatalog_clock sampleRuntime (js "/repo") sampleWorld
    (buildCatalog sampleRuntime (js "/repo") sampleWorld).2 (js "2025-01-01T00:00:00.000Z")
    sampleCatalog rfl (by decide) (by decide) rfl⟩

/-! ## Order of the catalog, and values of other types -/

theorem buildCatalog_ids (rt : Runtime) (root : Str) (dir : Node) (ids : List Str)
    (skills : List SkillRecord) (records : List CatalogSkill)
    (hread : readSkills rt.yaml (readFileSync (pathJoin [root, js "skills"]) dir)
      (pathJoin [root, js "skills"]) ids = .ok skills)
    (hrecs : catalogSkillsOf rt.toLowerCase root skills = .ok records) :
    (records.map fun r => r.id) = ids := by
  have f1 := readSkills_forall₂ _ _ _ ids skills hread
  have f2 := catalogSkillsOf_forall₂ _ _ skills records hrecs
  have e1 : ids.map id = skills.map fun s => s.id :=
    forall₂_map_eq _ id (fun s : SkillRecord => s.id)
      (fun a b hab => (readSkill_id _ _ _ a b hab).symm) ids skills f1
  have e2 : (skills.map fun s => s.id) = records.map fun r => r.id :=
    forall₂_map_eq _ (fun s : SkillRecord => s.id) (fun r : CatalogSkill => r.id)
      (fun a b hab => hab.1.symm) skills records f2
  rw [← e2, ← e1, List.map_id]

theorem mapToLowerCase_non_string (toLowerCase : Str → Str) (tags : List JSValue)
    (tag : JSValue) (hmem : tag ∈ tags) (hns : ∀ s, tag ≠ .string s) :
    mapToLowerCase toLowerCase tags = .error .typeError := by
  induction tags with
  | nil => simp at hmem
  | cons t rest ih =>
    cases t with
    | string s =>
      have hrest : tag ∈ rest := by
        rcases List.mem_cons.1 hmem with h | h
        · exact absurd h (hns s)
        · exact h
      simp only [mapToLowerCase, callToLowerCase, ih hrest]
    | undefined => rfl
    | null => rfl
    | bool b => rfl
    | number n => rfl
    | nan => rfl
    | array items => rfl
    | object props => rfl

/-- C16 as stated fails: with a comparator that orders letters alphabetically whatever
their case, as the collation of `localeCompare` does, the skills `B` and `a` are
discovered in the order `B`, `a` and listed in the catalog in the order `a`, `B`. -/
theorem buildCatalog_resort_counterexample :
    listSkillIdsRecursive mixedCaseTree = .ok [js "B", js "a"] ∧
      (buildCatalog alphabeticRuntime (js "/repo") ⟨some mixedCaseTree, none, []⟩).1 =
        .ok (some mixedCaseCatalog) ∧
      (mixedCaseCatalog.skills.map fun r => r.id) = [js "a", js "B"] ∧
      (mixedCaseCatalog.skills.map fun r => r.id) ≠ [js "B", js "a"] :=
  ⟨rfl, rfl, rfl, by decide⟩

/-- C16, amended: when `buildCatalog` returns a catalog and `localeCompare` keeps every two
discovered ids in their code-unit order, the records of the catalog are in the order in
which `listSkillIdsRecursive` returned the ids: the second sort changes nothing. -/
theorem buildCatalog_order (rt : Runtime) (root : Str) (w : World) (catalog : Catalog)
    (h : (buildCatalog rt root w).1 = .ok (some catalog)) :
    ∃ dir ids, w.skills = some dir ∧ listSkillIdsRecursive dir = .ok ids ∧
      ((∀ a ∈ ids, ∀ b ∈ ids, sortCompare a b ≤ 0 → rt.localeCompare a b ≤ 0) →
        (catalog.skills.map fun r => r.id) = ids) := by
  obtain ⟨dir, ids, skills, records, hdir, hids, hread, hrecs, rfl⟩ :=
    buildCatalog_ok rt root w catalog h
  refine ⟨dir, ids, hdir, hids, fun hagree => ?_⟩
  have hmap := buildCatalog_ids rt root dir ids skills records hread hrecs
  have hsorted := listSkillIdsRecursive_sorted dir ids hids
  have hrecords : records.Pairwise fun a b => rt.localeCompare a.id b.id ≤ 0 := by
    rw [← hmap, List.pairwise_map] at hsorted
    refine hsorted.imp_of_mem ?_
    intro a b ha hb hab
    exact hagree a.id (hmap ▸ List.mem_map_of_mem _ ha) b.id (hmap ▸ List.mem_map_of_mem _ hb) hab
  have hsame : sortBy (fun a b : CatalogSkill => rt.localeCompare a.id b.id) records = records :=
    List.Sorted.insertionSort_eq hrecords
  simp only [hsame, hmap]

set_option maxRecDepth 100000 in
/-- C16 amended, at the sample tree with comparison by code units. -/
theorem buildCatalog_order_witness :
    (buildCatalog sampleRuntime (js "/repo") sampleWorld).1 = .ok (some sampleCatalog) ∧
    ∃ dir ids, sampleWorld.skills = some dir ∧ listSkillIdsRecursive dir = .ok ids ∧
      ((∀ a ∈ ids, ∀ b ∈ ids, sortCompare a b ≤ 0 → sampleRuntime.localeCompare a b ≤ 0) →
        (sampleCatalog.skills.map fun r => r.id) = ids) :=
  ⟨rfl, buildCatalog_order sampleRuntime (js "/repo") sampleWorld sampleCatalog rfl⟩

/-- C17, the code at the failing input: as soon as one tag is not a string (`null`, a
number, a boolean), `deriveTags` raises a `TypeError` in `tag.toLowerCase()`, before
`filter(Boolean)` runs. -/
theorem deriveTags_non_string (toLowerCase : Str → Str) (skill : SkillRecord) (tag : JSValue)
    (hmem : tag ∈ skill.tags) (hns : ∀ s, tag ≠ .string s) :
    deriveTags toLowerCase skill = .error .typeError := by
  simp only [deriveTags, mapToLowerCase_non_string toLowerCase skill.tags tag hmem hns]

/-- C17 at the tags `['Foo', null]`. -/
theorem deriveTags_non_string_witness :
    deriveTags asciiToLowerCase
        { id := js "a", name := .string (js "a"), description := .string [],
          tags := [.string (js "Foo"), .null], path := js "skills/a/SKILL.md" } =
      .error .typeError :=
  deriveTags_non_string asciiToLowerCase _ .null (by simp) (by intro s h; cases h)

/-- C18 as stated fails: for the header `name: 7`, `description: 42`, `readSkill` returns a
record whose name is the number 7 and whose description is the number 42, not strings. -/
theorem readSkill_number_description_counterexample :
    readSkill (fun _ => .ok (.object [(js "name", .number 7), (js "description", .number 42)]))
        (fun _ => .ok (js "---\nname: 7\ndescription: 42\n---\n")) (js "skills") (js "a") =
      .ok {
        id := js "a"
        name := .number 7
        description := .number 42
        tags := []
        path := js "skills/a/SKILL.md" } ∧
      (JSValue.number 7).isString = false ∧ (JSValue.number 42).isString = false :=
  ⟨rfl, rfl, rfl⟩

/-- C18, amended: whatever the header mapping, `readSkill` returns a record; when the name
of the header is a string or falsy (absent, `null`, `''`, `0`, `false`) the name of the
record is a string, and when the description of the header is a string or falsy the
description of the record is a string, which `renderCatalogMarkdown` escapes and prints;
a truthy name or description, of whatever type, is kept as it is. -/
theorem readSkill_strings (yaml : Str → Except JSError JSValue)
    (readFile : Str → Except JSError Str) (skillDir skillId content : Str)
    (d : List (Str × JSValue))
    (hread : readFile (pathJoin [skillDir, skillId, SKILL_MD]) = .ok content)
    (hdata : (parseFrontmatter yaml content).data = .object d) :
    ∃ record, readSkill yaml readFile skillDir skillId = .ok record ∧
      ((((d.lookup (js "name")).getD .undefined).isString = true ∨
          ((d.lookup (js "name")).getD .undefined).truthy = false) →
        record.name.isString = true) ∧
      ((((d.lookup (js "description")).getD .undefined).isString = true ∨
          ((d.lookup (js "description")).getD .undefined).truthy = false) →
        record.description.isString = true ∧
          ∃ text, record.description = .string text ∧
            renderDescription record.description = .ok (escapePipes text)) ∧
      (((d.lookup (js "name")).getD .undefined).truthy = true →
        record.name = (d.lookup (js "name")).getD .undefined) ∧
      (((d.lookup (js "description")).getD .undefined).truthy = true →
        record.description = (d.lookup (js "description")).getD .undefined) := by
  have hor : ∀ (v : JSValue) (s : Str), (v.isString = true ∨ v.truthy = false) →
      ∃ text, v.or (.string s) = .string text := by
    intro v s hv
    by_cases ht : v.truthy = true
    · rcases hv with hv | hv
      · cases v with
        | string text => exact ⟨text, by simp [JSValue.or, ht]⟩
        | undefined => cases hv
        | null => cases hv
        | bool b => cases hv
        | number n => cases hv
        | nan => cases hv
        | array items => cases hv
        | object props => cases hv
      · rw [ht] at hv; cases hv
    · exact ⟨s, by simp [JSValue.or, ht]⟩
  refine ⟨{
      id := skillId
      name := ((d.lookup (js "name")).getD .undefined).or (.string skillId)
      description := ((d.lookup (js "description")).getD .undefined).or (.string [])
      tags := arrayOrEmpty ((d.lookup (js "tags")).getD .undefined)
      path := pathJoin [skillDir, skillId, SKILL_MD] },
    by simp only [readSkill, hread, hdata, JSValue.getProp], ?_, ?_, ?_, ?_⟩
  · intro hname
    obtain ⟨n, hn⟩ := hor _ skillId hname
    simp only [hn, JSValue.isString]
  · intro hdesc
    obtain ⟨t, ht⟩ := hor _ [] hdesc
    refine ⟨by simp only [ht, JSValue.isString], t, ht, ?_⟩
    simp only [ht]
    exact renderDescription_eq (.string t) (Or.inl ⟨t, rfl⟩)
  · intro ht
    simp only [JSValue.or, ht, if_true]
  · intro ht
    simp only [JSValue.or, ht, if_true]

/-- C18 amended, at the header `description: Writes things` without a name. -/
theorem readSkill_strings_witness :
    ∃ record,
      readSkill (fun _ => .ok (.object [(js "description", .string (js "Writes things"))]))
        (fun _ => .ok (js "---\ndescription: Writes things\n---\n")) (js "skills")
        (js "writer") = .ok record ∧
      record.name.isString = true ∧ record.description.isString = true ∧
      (∃ text, record.description = .string text ∧
        renderDescription record.description = .ok (escapePipes text)) ∧
      record.description = .string (js "Writes things") := by
  obtain ⟨record, hrec, hname, hdesc, _, hkept⟩ :=
    readSkill_strings (fun _ => .ok (.object [(js "description", .string (js "Writes things"))]))
      (fun _ => .ok (js "---\ndescription: Writes things\n---\n")) (js "skills")
      (js "writer") _ [(js "description", .string (js "Writes things"))] rfl
      (by rw [parseFrontmatter_of_closingIndex _ _ 2 (by decide)])
  exact ⟨record, hrec, hname (Or.inr rfl), (hdesc (Or.inl rfl)).1, (hdesc (Or.inl rfl)).2,
    hkept rfl⟩

/-! ## Newline conventions -/

theorem splitLines_lf (t : Str) : splitLines (LF :: t) = [] :: splitLines t := by
  cases t with
  | nil => rfl
  | cons d rest => simp [splitLines]

theorem splitLines_crlf (t : Str) : splitLines (CR :: LF :: t) = [] :: splitLines t := by
  have h : ¬ CR = LF := by decide
  simp [splitLines, h]

theorem splitLines_cons (c : Nat) (t : Str) (h1 : c ≠ LF) (h2 : c ≠ CR) :
    splitLines (c :: t) = pushFront c (splitLines t) := by
  cases t with
  | nil => simp [splitLines, h1, pushFront]
  | cons d rest => simp [splitLines, h1, h2]

theorem splitLines_lfToCrlf (s : Str) (h : CR ∉ s) : splitLines (lfToCrlf s) = splitLines s := by
  induction s with
  | nil => rfl
  | cons c rest ih =>
    have hc : c ≠ CR := fun hc => h (by simp [hc])
    have hrest : CR ∉ rest := fun hm => h (List.mem_cons_of_mem _ hm)
    have hcons : lfToCrlf (c :: rest) = (if c = LF then [CR, LF] else [c]) ++ lfToCrlf rest := by
      simp [lfToCrlf]
    rw [hcons]
    by_cases hlf : c = LF
    · subst hlf
      simp only [if_true, List.cons_append, List.nil_append]
      rw [splitLines_crlf, splitLines_lf, ih hrest]
    · simp only [hlf, if_false, List.cons_append, List.nil_append]
      rw [splitLines_cons c _ hlf hc, splitLines_cons c _ hlf hc, ih hrest]

/-- C19: for a document without carriage returns that has a complete header closed by line
`e`, the document with every `\n` replaced by `\r\n` has the same lines, so its header
is closed by the same line, `parseFrontmatter` hands the same header text to the parser
and returns the same data and the same body. -/
theorem parseFrontmatter_crlf (yaml : Str → Except JSError JSValue) (content : Str) (e : Nat)
    (hcr : CR ∉ content) (h : ClosingIndex content e) :
    splitLines (lfToCrlf content) = splitLines content ∧
      ClosingIndex (lfToCrlf content) e ∧
      join [LF] (slice (splitLines (lfToCrlf content)) 1 e) =
        join [LF] (slice (splitLines content) 1 e) ∧
      (parseFrontmatter yaml (lfToCrlf content)).data = (parseFrontmatter yaml content).data ∧
      (parseFrontmatter yaml (lfToCrlf content)).body = (parseFrontmatter yaml content).body := by
  have hlines := splitLines_lfToCrlf content hcr
  have h2 : ClosingIndex (lfToCrlf content) e := by
    unfold ClosingIndex
    rw [hlines]
    exact h
  refine ⟨hlines, h2, by rw [hlines], ?_, ?_⟩
  · rw [parseFrontmatter_of_closingIndex yaml _ e h2,
      parseFrontmatter_of_closingIndex yaml _ e h, hlines]
  · rw [parseFrontmatter_of_closingIndex yaml _ e h2,
      parseFrontmatter_of_closingIndex yaml _ e h, hlines]

/-- C19 at a document with a one-line header and a two-line body. -/
theorem parseFrontmatter_crlf_witness :
    lfToCrlf (js "---\nname: x\n---\na\nb") = js "---\r\nname: x\r\n---\r\na\r\nb" ∧
      (parseFrontmatter (fun _ => .ok .null) (js "---\r\nname: x\r\n---\r\na\r\nb")).body =
        (parseFrontmatter (fun _ => .ok .null) (js "---\nname: x\n---\na\nb")).body :=
  ⟨by decide,
    (parseFrontmatter_crlf (fun _ => .ok .null) (js "---\nname: x\n---\na\nb") 2 (by decide)
      (by decide)).2.2.2.2⟩

/-! ## The pure formulation of the walk -/

theorem qualifyingChildren_cons (rel : List Str) (entry : Node) (rest : List Node) :
    qualifyingChildren rel (entry :: rest) =
      (if (!startsWithDot entry.name && entry.isDirectory && existsSync entry SKILL_MD) = true
        then [join [SEP] (rel ++ [entry.name])] else []) ++ qualifyingChildren rel rest := by
  simp only [qualifyingChildren, List.filter_cons]
  split <;> simp

theorem perm_interleave {α : Type} (a b c d : List α) :
    ((a ++ b) ++ (c ++ d)).Perm ((a ++ c) ++ (b ++ d)) := by
  rw [List.append_assoc, List.append_assoc]
  refine List.Perm.append_left a ?_
  rw [← List.append_assoc, ← List.append_assoc]
  exact List.Perm.append_right d List.perm_append_comm

mutual
theorem collectSkillIds_perm (rel : List Str) (node : Node) :
    (collectSkillIds rel node).Perm
      ((skillsIn node.entries).map fun s => join [SEP] (rel ++ s)) := by
  match node with
  | .file _ _ => simp [collectSkillIds, Node.entries, skillsIn]
  | .dir _ _ _ entries _ =>
    simp only [collectSkillIds, Node.entries]
    exact collectBelow_perm rel entries
theorem collectBelow_perm (rel : List Str) (entries : List Node) :
    (qualifyingChildren rel entries ++ collectBelow rel entries).Perm
      ((skillsIn entries).map fun s => join [SEP] (rel ++ s)) := by
  match entries with
  | [] => simp [qualifyingChildren, collectBelow, skillsIn]
  | entry :: rest =>
    have ih := collectBelow_perm rel rest
    rw [qualifyingChildren_cons]
    simp only [collectBelow, skillsIn, List.map_append]
    refine (perm_interleave _ _ _ _).trans (List.Perm.append ?_ ih)
    cases entry with
    | file name content =>
      simp only [Node.name, Node.isDirectory, skillsBelow, collectSkillIds]
      cases startsWithDot name <;> simp
    | dir name listable searchable children links =>
      have ihc := collectSkillIds_perm (rel ++ [name]) (.dir name listable searchable children links)
      simp only [Node.name, Node.isDirectory, skillsBelow]
      cases hdot : startsWithDot name with
      | true => simp
      | false =>
        have hfun : ((fun s => join [SEP] (rel ++ [name] ++ s)) : List Str → Str) =
            (fun s => join [SEP] (rel ++ s)) ∘ fun segments => name :: segments := by
          funext s; simp
        simp only [Node.entries, hfun] at ihc
        simp only [Bool.not_false, Bool.true_and, Bool.false_eq_true, if_false,
          List.map_append, List.map_map]
        refine List.Perm.append ?_ ihc
        cases existsSync (.dir name listable searchable children links) SKILL_MD <;> simp
end

theorem sortBy_sortCompare_congr (l1 l2 : List Str) (h : l1.Perm l2) :
    sortBy sortCompare l1 = sortBy sortCompare l2 := by
  haveI : IsAntisymm Str (fun a b => sortCompare a b ≤ 0) :=
    ⟨fun a b hab hba => by
      rw [sortCompare_le_iff] at hab hba
      exact strLt_trichotomy a b hba hab⟩
  refine List.eq_of_perm_of_sorted ?_ (sortBy_sorted _ sortCompare_total sortCompare_trans l1)
    (sortBy_sorted _ sortCompare_total sortCompare_trans l2)
  exact (sortBy_perm _ l1).trans (h.trans (sortBy_perm _ l2).symm)

/-- C20: on a tree it can walk, `listSkillIdsRecursive`, which pushes onto one accumulator
and sorts it at the end of every call, returns the sequence of the pure formulation: the
paths of the qualifying children of each directory and the results for its subdirectories
that are not hidden, concatenated, and sorted once at the end. -/
theorem listSkillIdsRecursive_refines_pure (dir : Node) (hwalk : dir.walkable = true) :
    listSkillIdsRecursive dir = .ok (listSkillIdsPure dir) := by
  obtain ⟨result, hres⟩ := listSkillIdsRecursiveFrom_ok [] dir [] hwalk
  have hres2 : listSkillIdsRecursive dir = .ok result := hres
  rw [hres2]
  congr 1
  cases dir with
  | file _ _ => simp [Node.walkable] at hwalk
  | dir name listable searchable entries links =>
    simp only [Node.walkable, Bool.and_eq_true] at hwalk
    simp only [listSkillIdsRecursive, listSkillIdsRecursiveFrom, hwalk.1, Bool.and_self,
      Bool.true_and, if_true] at hres2
    cases hloop : forEntries [] searchable entries [] with
    | error e => simp [hloop] at hres2
    | ok acc =>
      simp only [hloop, Except.ok.injEq] at hres2
      rw [← hres2]
      apply sortBy_sortCompare_congr
      have p1 := forEntries_perm [] searchable entries [] acc hloop
      have p2 := collectSkillIds_perm [] (.dir name listable searchable entries links)
      simp only [List.nil_append, Node.entries] at p1 p2
      exact p1.trans p2.symm

/-- C20 at the sample tree. -/
theorem listSkillIdsRecursive_refines_pure_witness :
    sampleTree.walkable = true ∧ listSkillIdsPure sampleTree = [js "a", js "a/b", js "c"] ∧
      listSkillIdsRecursive sampleTree = .ok (listSkillIdsPure sampleTree) :=
  ⟨by decide, by decide, listSkillIdsRecursive_refines_pure sampleTree (by decide)⟩

end SkillCatalog
